import Mathlib

/-!
Verification of the dependency-graph core of `extract_flow.py`
(Code_Extractor repository).

The Python program builds a directed dependency graph over Java class
simple names (`networkx.DiGraph`), computes the bidirectional reachability
closure around a target class (`collect_connected_classes`), linearizes it
(`topologically_order_subgraph`, Kahn-style topological sort with a DFS
post-order fallback on cycles), and resolves textual call tokens to class
names through a layered heuristic (`build_dependency_graph`).

This file shallowly embeds those functions: `networkx` graphs become node
and edge lists in insertion order, Python dicts become association lists
with last-writer-wins update, the regex token scanner becomes an explicit
character-level scanner with the same leftmost/non-greedy semantics, and
fallible code returns `Except`/`Option`.  IO (printing, file writing) is
modelled by returning the data that would be printed or written.
-/

namespace CodeExtractor

/-- Directed dependency graph over class simple names, modelling the
`networkx.DiGraph` used by `extract_flow.py`: a node list and an edge list,
both kept in insertion order and free of duplicates (multiplicity collapses,
exactly as in `networkx`). -/
structure DiGraph where
  nodes : List String
  edges : List (String × String)
deriving Repr, DecidableEq

/-- The empty graph `nx.DiGraph()`. -/
def emptyGraph : DiGraph := ⟨[], []⟩

/-- `G.add_node(n)`: appends the node unless it is already present. -/
def addNode (g : DiGraph) (n : String) : DiGraph :=
  if n ∈ g.nodes then g else { g with nodes := g.nodes ++ [n] }

/-- `G.add_edge(u, v)`: registers both endpoints as nodes and appends the
edge unless it is already present (`addNode` leaves edges unchanged, so the
presence test may equivalently read the original edge list). -/
def addEdge (g : DiGraph) (u v : String) : DiGraph :=
  if (u, v) ∈ g.edges then addNode (addNode g u) v
  else { addNode (addNode g u) v with edges := g.edges ++ [(u, v)] }

/-- Successors of `n`, in adjacency (edge-insertion) order, as
`G.successors(n)` yields them. -/
def succs (g : DiGraph) (n : String) : List String :=
  (g.edges.filter (fun e => e.1 == n)).map (fun e => e.2)

/-- Well-formedness: every edge endpoint is a registered node.  `networkx`
guarantees this because `add_edge` registers its endpoints. -/
def EdgesWF (g : DiGraph) : Prop :=
  ∀ e ∈ g.edges, e.1 ∈ g.nodes ∧ e.2 ∈ g.nodes

instance (g : DiGraph) : Decidable (EdgesWF g) := by
  unfold EdgesWF; infer_instance

/-- `isWalk g a b l` states that `l` is the list of nodes visited after `a`
on a directed walk from `a` to `b`: each consecutive pair is an edge. -/
def isWalk (g : DiGraph) : String → String → List String → Prop
  | a, b, [] => a = b
  | a, b, c :: l => (a, c) ∈ g.edges ∧ isWalk g c b l

/-- There is a directed path (possibly empty) from `a` to `b`. -/
def Reaches (g : DiGraph) (a b : String) : Prop := ∃ l, isWalk g a b l

/-- Bounded reachability: `b` is reachable from `a` by a walk of length at
most `f`. -/
def reachWithin (g : DiGraph) : Nat → String → String → Bool
  | 0, a, b => a == b
  | f + 1, a, b => a == b || (succs g a).any (fun c => reachWithin g f c b)

/-- Reachability decided with fuel `g.edges.length`; this is enough fuel
because a duplicate-free walk uses pairwise distinct edges. -/
def reachableFrom (g : DiGraph) (a b : String) : Bool :=
  reachWithin g g.edges.length a b

/-- The list of edges traversed by a walk that starts at `a` and then
visits the nodes of `l` in order. -/
def walkEdges : String → List String → List (String × String)
  | _, [] => []
  | a, c :: l => (a, c) :: walkEdges c l

/-- Decides whether the graph contains a directed cycle (a nonempty closed
walk); `nx.topological_sort` raises `NetworkXUnfeasible` exactly then. -/
def hasCycleB (g : DiGraph) : Bool :=
  g.edges.any (fun e => reachableFrom g e.2 e.1)

/-! ## Closure: `collect_connected_classes`

The Python function raises `KeyError` when the target is not a node, and
otherwise returns `set([target]) | nx.descendants(G, target) |
nx.ancestors(G, target)`.  `nx.descendants` (resp. `nx.ancestors`) is the
set of nodes reachable from (resp. that reach) the target, the target
itself excluded; the union puts it back.  Sets are modelled as lists whose
membership is the set membership. -/

/-- `nx.descendants(G, t)`: nodes other than `t` reachable from `t`. -/
def descendants (g : DiGraph) (t : String) : List String :=
  g.nodes.filter (fun n => !(n == t) && reachableFrom g t n)

/-- `nx.ancestors(G, t)`: nodes other than `t` that reach `t`. -/
def ancestors (g : DiGraph) (t : String) : List String :=
  g.nodes.filter (fun n => !(n == t) && reachableFrom g n t)

/-- `collect_connected_classes(G, target)` from `extract_flow.py`: raises
(`Except.error`) when the target is not a node, and otherwise returns
`{target} ∪ descendants ∪ ancestors`. -/
def collect_connected_classes (g : DiGraph) (target : String) :
    Except String (List String) :=
  if target ∈ g.nodes then
    .ok (target :: (descendants g target ++ ancestors g target))
  else
    .error ("Target class " ++ target ++ " not found in graph")

/-! ## Ordering: `topologically_order_subgraph`

The Python function induces the subgraph on a node set, tries
`nx.topological_sort` and, if that raises (exactly when the induced
subgraph has a directed cycle), falls back to a depth-first post-order
traversal over the subgraph's node enumeration, reversing the collected
sequence.  `nx.topological_sort` is modelled by a Kahn-style elimination
of in-degree-zero nodes, which succeeds exactly on acyclic inputs. -/

/-- `G.subgraph(nodes_set).copy()`: nodes of `g` lying in `ns`, and edges of
`g` with both endpoints in `ns`, each in `g`'s insertion order. -/
def inducedSubgraph (g : DiGraph) (ns : List String) : DiGraph :=
  { nodes := g.nodes.filter (fun n => decide (n ∈ ns)),
    edges := g.edges.filter (fun e => decide (e.1 ∈ ns) && decide (e.2 ∈ ns)) }

/-- First node of `rem` with no incoming edge from `rem` (self-edges
count as incoming, so a self-loop blocks its node, as in Kahn's algorithm). -/
def pickZero (g : DiGraph) (rem : List String) : Option String :=
  rem.find? (fun n => !(g.edges.any (fun e => e.2 == n && decide (e.1 ∈ rem))))

/-- Kahn's algorithm with explicit fuel: repeatedly emit a node with no
incoming edge from the remaining set; `none` signals a cycle. -/
def kahnAux (g : DiGraph) : Nat → List String → Option (List String)
  | 0, rem => if rem.isEmpty then some [] else none
  | f + 1, rem =>
    if rem.isEmpty then some []
    else
      match pickZero g rem with
      | none => none
      | some n => (kahnAux g f (rem.erase n)).map (fun l => n :: l)

/-- `list(nx.topological_sort(G))`, as an `Option`: `none` models the
`NetworkXUnfeasible` exception raised on cyclic graphs. -/
def topological_sort (g : DiGraph) : Option (List String) :=
  kahnAux g g.nodes.length g.nodes

/-- One step of the recursive `dfs` in the cycle fallback of
`topologically_order_subgraph`: skip visited nodes, otherwise mark the node
visited, recurse into its successors, then append the node to the
post-order list.  Fuel only bounds the recursion depth; the callers supply
enough for it never to run out on well-formed graphs. -/
def dfsVisit (g : DiGraph) : Nat → String → List String × List String →
    List String × List String
  | 0, _, st => st
  | f + 1, n, st =>
    if n ∈ st.1 then st
    else
      let st' := (succs g n).foldl (fun acc nb => dfsVisit g f nb acc)
        (n :: st.1, st.2)
      (st'.1, st'.2 ++ [n])

/-- The complete DFS post-order pass `for n in sub.nodes(): dfs(n)` of the
cycle fallback, returning the collected `order` list (before reversal). -/
def dfsPostorder (g : DiGraph) : List String :=
  (g.nodes.foldl (fun acc n => dfsVisit g (g.nodes.length + 1) n acc)
    ([], [])).2

/-- `topologically_order_subgraph(G, nodes_set)` from `extract_flow.py`. -/
def topologically_order_subgraph (g : DiGraph) (ns : List String) :
    List String :=
  let sub := inducedSubgraph g ns
  match topological_sort sub with
  | some order => order
  | none => (dfsPostorder sub).reverse

/-- `u` appears strictly before `v` in the list `l`. -/
def Precedes (l : List String) (u v : String) : Prop :=
  ∃ i j : Fin l.length, i < j ∧ l.get i = u ∧ l.get j = v

/-- Relation between the DFS state before and after a step: the visited list
grows by a prefix, stays duplicate-free and inside the node set, and the
multiset difference between visited and emitted nodes is preserved
(`p` is the list of visited-but-not-yet-emitted nodes). -/
def DfsOut (g : DiGraph) (vis ord : List String)
    (st : List String × List String) : Prop :=
  (∃ d, st.1 = d ++ vis) ∧ st.1.Nodup ∧ st.1 ⊆ g.nodes ∧
  ∀ p, vis.Perm (ord ++ p) → st.1.Perm (st.2 ++ p)

/-! ## Call-token scanning

`build_dependency_graph` scans method snippets and file-level call texts
with `re.findall(r'([A-Za-z_][A-Za-z0-9_\.]*?)\s*\.', text)`: a leftmost
scan in which the non-greedy group takes the shortest extent that is
followed by optional whitespace and a literal dot, and scanning resumes
just after that dot.  The scanner below implements exactly that semantics
on the character list of the text. -/

/-- Characters matching `[A-Za-z_]` (the group's first character). -/
def isIdStart (c : Char) : Bool := c.isAlpha || c = '_'

/-- Characters matching `[A-Za-z0-9_\.]` (subsequent group characters;
also the characters of `[\w\.]` in the import regex). -/
def isIdChar (c : Char) : Bool := c.isAlphanum || c = '_' || c = '.'

/-- Characters matching `\s`. -/
def isSpaceChar (c : Char) : Bool :=
  c = ' ' || c = '\t' || c = '\n' || c = '\r' || c = '\x0b' || c = '\x0c'

/-- Matches `\s*\.` at the front of the text: skips whitespace, then
requires a literal dot; returns the text after the dot. -/
def afterGroup : List Char → Option (List Char)
  | [] => none
  | c :: rest =>
    if c = '.' then some rest
    else if isSpaceChar c then afterGroup rest else none

/-- Non-greedy extension of the capture group: `acc` holds the group read
so far (reversed); the shortest extension whose remainder matches `\s*\.`
wins.  Returns the captured group and the text after the dot. -/
def matchGroup : List Char → List Char → Option (String × List Char)
  | _, [] => none
  | acc, c :: rest =>
    match afterGroup (c :: rest) with
    | some rem => some (String.mk acc.reverse, rem)
    | none => if isIdChar c then matchGroup (c :: acc) rest else none

/-- Leftmost token scan with fuel (one unit per consumed character; the
callers pass the text length, which suffices because every step consumes at
least one character). -/
def findTokensAux : Nat → List Char → List String
  | 0, _ => []
  | _, [] => []
  | f + 1, c :: rest =>
    if isIdStart c then
      match matchGroup [c] rest with
      | some (tok, rem) => tok :: findTokensAux f rem
      | none => findTokensAux f rest
    else
      findTokensAux f rest

/-- `re.findall(r'([A-Za-z_][A-Za-z0-9_\.]*?)\s*\.', s)`. -/
def findTokens (s : String) : List String := findTokensAux s.length s.data

/-- Character-level scan for `split('.')[-1]`: the accumulator collects the
current segment (reversed) and is reset at every dot, so the final
accumulator holds the trailing segment. -/
def lastSegmentAux : List Char → List Char → List Char
  | acc, [] => acc.reverse
  | acc, c :: rest =>
    if c = '.' then lastSegmentAux [] rest else lastSegmentAux (c :: acc) rest

/-- `tok.split('.')[-1]`: the trailing dot-separated segment (the whole
string when it has no dot, empty when it ends in a dot). -/
def lastSegment (s : String) : String := String.mk (lastSegmentAux [] s.data)

/-- `re.match(r'import\s+([\w\.]+);', imp)`: the leading literal `import`,
at least one whitespace character, a maximal nonempty run of `[\w\.]`
characters, then a semicolon; returns the captured run. -/
def parseImport (imp : String) : Option String :=
  let cs := imp.data
  if cs.take 6 = "import".data then
    let rest := cs.drop 6
    let sp := rest.takeWhile isSpaceChar
    let rest1 := rest.dropWhile isSpaceChar
    if sp.isEmpty then none
    else
      let word := rest1.takeWhile isIdChar
      let rest2 := rest1.dropWhile isIdChar
      if word.isEmpty then none
      else
        match rest2 with
        | ';' :: _ => some (String.mk word)
        | _ => none
  else none

/-! ## Per-file metadata and the dependency-graph builder

The shapes below mirror the dictionaries produced by `extract_from_tree`
and `extract_from_text_fallback` (only the fields `build_dependency_graph`
reads).  Python dicts are association lists in insertion order with
last-writer-wins update. -/

/-- Per-method metadata: the raw body text scanned for call tokens and the
recorded local-variable types (`vars`; empty for the tree-sitter producer,
which records no locals). -/
structure MethodMeta where
  snippet : String
  vars : List (String × String)
deriving Repr, DecidableEq

/-- Per-class metadata: supertype and interface simple names, methods keyed
by name, and recorded field types (`class_vars`; empty for the tree-sitter
producer). -/
structure ClassMeta where
  extends_ : List String
  implements : List String
  methods : List (String × MethodMeta)
  class_vars : List (String × String)
deriving Repr, DecidableEq

/-- Per-file metadata record handed to `build_dependency_graph`. -/
structure FileMeta where
  path : String
  package : Option String
  imports : List String
  classes : List (String × ClassMeta)
  method_calls : List String
deriving Repr, DecidableEq

/-- Value stored in the `class_to_file` registry. -/
structure ClassInfo where
  file : String
  package : Option String
  cmeta : ClassMeta
deriving Repr, DecidableEq

/-- Python dict lookup on an association list (keys are unique by
construction, so first match is the match). -/
def lookupAssoc {α : Type} : List (String × α) → String → Option α
  | [], _ => none
  | p :: m, k => if p.1 == k then some p.2 else lookupAssoc m k

/-- Python dict update: replaces the value in place if the key is present
(keeping its position), appends otherwise. -/
def insertAssoc {α : Type} : List (String × α) → String → α →
    List (String × α)
  | [], k, v => [(k, v)]
  | p :: m, k, v =>
    if p.1 == k then (k, v) :: m else p :: insertAssoc m k v

/-- State threaded through the class-registration loop: the registry, the
duplicate-name warnings `(name, new file, old file)` printed so far, and
the graph holding the registered nodes. -/
structure RegState where
  reg : List (String × ClassInfo)
  warnings : List (String × String × String)
  g : DiGraph
deriving Repr, DecidableEq

/-- Registration of one class: warn on a duplicate simple name, overwrite
the registry entry (last writer wins), and add the graph node. -/
def registerClass (st : RegState) (path : String) (pkg : Option String)
    (cn : String) (cm : ClassMeta) : RegState :=
  let warnings :=
    match lookupAssoc st.reg cn with
    | some prev => st.warnings ++ [(cn, path, prev.file)]
    | none => st.warnings
  { reg := insertAssoc st.reg cn ⟨path, pkg, cm⟩,
    warnings := warnings,
    g := addNode st.g cn }

/-- The node-registration pass of `build_dependency_graph`. -/
def registerAll (ms : List FileMeta) : RegState :=
  ms.foldl (fun st fm =>
    fm.classes.foldl
      (fun st p => registerClass st fm.path fm.package p.1 p.2) st)
    ⟨[], [], emptyGraph⟩

/-- The inheritance-edge pass: for each registry entry, an edge to every
supertype or interface name that is itself registered. -/
def addInheritanceEdges (reg : List (String × ClassInfo)) (g : DiGraph) :
    DiGraph :=
  reg.foldl (fun g p =>
    (p.2.cmeta.extends_ ++ p.2.cmeta.implements).foldl (fun g sup =>
      if (lookupAssoc reg sup).isSome then addEdge g p.1 sup else g) g) g

/-- A candidate recorded in `simple_map` for a simple class name. -/
structure Cand where
  package : String
  file : String
deriving Repr, DecidableEq

/-- `defaultdict(list)` append. -/
def appendCand : List (String × List Cand) → String → Cand →
    List (String × List Cand)
  | [], k, c => [(k, [c])]
  | p :: m, k, c =>
    if p.1 == k then (p.1, p.2 ++ [c]) :: m else p :: appendCand m k c

/-- The `simple_map` built over the registry (simple name to candidate
list; since the registry is keyed by simple name, each list ends up with
exactly one entry). -/
def buildSimpleMap (reg : List (String × ClassInfo)) :
    List (String × List Cand) :=
  reg.foldl (fun m p => appendCand m p.1 ⟨p.2.package.getD "", p.2.file⟩) []

/-- One iteration of the import loop: an import resolves `simple` when its
parsed fully-qualified name ends in `.{simple}`, or when it is a
wildcard import whose package holds a registered class named `simple` (the
latter is unreachable in practice: the regex `[\w\.]+` cannot match `*`,
so wildcard imports never parse — faithfully mirrored here). -/
def importMatch (simpleMap : List (String × List Cand)) (simple : String)
    (imp : String) : Option String :=
  match parseImport imp with
  | none => none
  | some fq =>
    if fq.endsWith ("." ++ simple) then some simple
    else if fq.endsWith ".*" then
      match lookupAssoc simpleMap simple with
      | some cands =>
        if cands.any (fun c => c.package == fq.dropRight 2) then some simple
        else none
      | none => none
    else none

/-- The import loop of the resolution chain: the first import that matches
wins (`break`); otherwise the loop continues. -/
def resolveWithImports (simpleMap : List (String × List Cand))
    (simple : String) : List String → Option String
  | [] => none
  | imp :: rest =>
    match importMatch simpleMap simple imp with
    | some r => some r
    | none => resolveWithImports simpleMap simple rest

/-- The per-token resolution chain of `build_dependency_graph` (after the
`this`/`super` skip): local-variable typing, field typing (both rewrite the
simple name), imports, same-package sibling, global uniqueness. -/
def resolveToken (imports : List String) (filePkg : String)
    (simpleMap : List (String × List Cand))
    (methodVars classVars : List (String × String)) (tok : String) :
    Option String :=
  let simple0 := lastSegment tok
  let simple :=
    match lookupAssoc methodVars tok with
    | some cand => lastSegment cand
    | none =>
      match lookupAssoc classVars tok with
      | some cand => lastSegment cand
      | none => simple0
  let r1 := resolveWithImports simpleMap simple imports
  let r2 :=
    match r1 with
    | some r => some r
    | none =>
      if filePkg ≠ "" then
        match lookupAssoc simpleMap simple with
        | some cands =>
          if cands.any (fun c => c.package == filePkg) then some simple
          else none
        | none => none
      else none
  match r2 with
  | some r => some r
  | none =>
    match lookupAssoc simpleMap simple with
    | some cands => if cands.length == 1 then some simple else none
    | none => none

/-- Processing of one token of a method snippet: skip empty/`this`/`super`,
resolve through the chain, and add the edge when the resolved name is
nonempty and registered. -/
def tokenEdgeStep (imports : List String) (filePkg : String)
    (simpleMap : List (String × List Cand))
    (methodVars classVars : List (String × String)) (known : List String)
    (caller : String) (g : DiGraph) (tok : String) : DiGraph :=
  if tok = "" ∨ tok = "this" ∨ tok = "super" then g
  else
    match resolveToken imports filePkg simpleMap methodVars classVars tok with
    | some r => if r ≠ "" ∧ r ∈ known then addEdge g caller r else g
    | none => g

/-- Processing of one method: scan its snippet and resolve each token. -/
def methodStep (imports : List String) (filePkg : String)
    (simpleMap : List (String × List Cand)) (classVars : List (String × String))
    (known : List String) (caller : String) (g : DiGraph)
    (mp : String × MethodMeta) : DiGraph :=
  (findTokens mp.2.snippet).foldl
    (tokenEdgeStep imports filePkg simpleMap mp.2.vars classVars known caller) g

/-- Processing of one token of a file-level call text: an edge whenever the
trailing segment is a registered name (no resolution chain, no skips). -/
def fileTokenStep (known : List String) (caller : String) (g : DiGraph)
    (tok : String) : DiGraph :=
  if lastSegment tok ∈ known then addEdge g caller (lastSegment tok) else g

/-- Processing of one file-level call text for a given caller class. -/
def fileCallStep (known : List String) (caller : String) (g : DiGraph)
    (ct : String) : DiGraph :=
  (findTokens ct).foldl (fileTokenStep known caller) g

/-- Processing of one class of a file: its methods' tokens through the
resolution chain, then the file-level call texts. -/
def classCallStep (imports : List String) (filePkg : String)
    (simpleMap : List (String × List Cand)) (known : List String)
    (mcalls : List String) (g : DiGraph) (cp : String × ClassMeta) : DiGraph :=
  let g1 := cp.2.methods.foldl
    (methodStep imports filePkg simpleMap cp.2.class_vars known cp.1) g
  mcalls.foldl (fileCallStep known cp.1) g1

/-- Processing of one file in the call-edge pass. -/
def fileCallEdges (simpleMap : List (String × List Cand))
    (known : List String) (g : DiGraph) (fm : FileMeta) : DiGraph :=
  fm.classes.foldl
    (classCallStep fm.imports (fm.package.getD "") simpleMap known
      fm.method_calls) g

/-- The call-edge pass: for every class of every file, resolve each token
of each method snippet through the chain, and afterwards add an edge for
each file-level call token whose trailing segment is a registered name. -/
def addCallEdges (ms : List FileMeta) (simpleMap : List (String × List Cand))
    (known : List String) (g0 : DiGraph) : DiGraph :=
  ms.foldl (fileCallEdges simpleMap known) g0

/-- Result of `build_dependency_graph`: the graph, the `class_to_file`
registry, and the duplicate-name warnings printed along the way. -/
structure BuildResult where
  G : DiGraph
  class_to_file : List (String × ClassInfo)
  warnings : List (String × String × String)
deriving Repr, DecidableEq

/-- `build_dependency_graph(all_files_meta)` from `extract_flow.py`. -/
def build_dependency_graph (ms : List FileMeta) : BuildResult :=
  let st := registerAll ms
  let g1 := addInheritanceEdges st.reg st.g
  let known := st.reg.map Prod.fst
  let simpleMap := buildSimpleMap st.reg
  ⟨addCallEdges ms simpleMap known g1, st.reg, st.warnings⟩

/-- Outcome of a run from the graph-building stage on: `targetNotFound`
models the early `return` after printing the `KeyError` message and a
sample of up to 50 known node names (no output artifacts are written);
`completed` carries the effective target and the final ordering that the
snippet-extraction and output-writing stages consume. -/
inductive RunOutcome where
  | targetNotFound (message : String) (sample : List String)
  | completed (target : String) (order : List String)
deriving Repr, DecidableEq

/-- The core of `run_flow` after metadata extraction: build the graph, map
a fully-qualified target to its simple name when only the latter is a
node, compute the closure (early return on failure), and order it. -/
def run_flow_from_meta (ms : List FileMeta) (target_class : String) :
    RunOutcome :=
  let r := build_dependency_graph ms
  let g := r.G
  let target :=
    if target_class ∉ g.nodes ∧ lastSegment target_class ∈ g.nodes then
      lastSegment target_class
    else target_class
  match collect_connected_classes g target with
  | .error msg => .targetNotFound msg (g.nodes.take 50)
  | .ok connected =>
    .completed target (topologically_order_subgraph g connected)

/-- Invariant carried through graph building: the nodes are exactly the
registry keys, and every edge endpoint is a node. -/
def GInv (keys : List String) (g : DiGraph) : Prop :=
  (∀ n, n ∈ g.nodes ↔ n ∈ keys) ∧
  ∀ e ∈ g.edges, e.1 ∈ g.nodes ∧ e.2 ∈ g.nodes

/-- Invariant of the registration pass: nodes are exactly registry keys and
no edge has been added yet. -/
def RInv (st : RegState) : Prop :=
  (∀ n, n ∈ st.g.nodes ↔ n ∈ st.reg.map Prod.fst) ∧ st.g.edges = []

/-! ## Registry characterization (for C8) -/

/-- The registration pairs `(simple name, registry value)` in the order the
registration loop processes them, across all files. -/
def regPairs : List FileMeta → List (String × ClassInfo)
  | [] => []
  | fm :: rest =>
    fm.classes.map (fun p => (p.1, ⟨fm.path, fm.package, p.2⟩)) ++
      regPairs rest

/-! ## Properties -/

@[simp] lemma isWalk_nil (g : DiGraph) (a b : String) :
    isWalk g a b [] ↔ a = b := Iff.rfl

@[simp] lemma isWalk_cons (g : DiGraph) (a b c : String) (l : List String) :
    isWalk g a b (c :: l) ↔ (a, c) ∈ g.edges ∧ isWalk g c b l := Iff.rfl

lemma reaches_refl (g : DiGraph) (a : String) : Reaches g a a := ⟨[], rfl⟩

lemma mem_succs (g : DiGraph) (a c : String) :
    c ∈ succs g a ↔ (a, c) ∈ g.edges := by
  simp only [succs, List.mem_map, List.mem_filter, beq_iff_eq]
  constructor
  · rintro ⟨e, ⟨he, h1⟩, h2⟩
    have : e = (a, c) := by
      cases e; simp_all
    simpa [this] using he
  · intro h
    exact ⟨(a, c), ⟨h, rfl⟩, rfl⟩

lemma reachWithin_sound (g : DiGraph) :
    ∀ (f : Nat) (a b : String), reachWithin g f a b = true → Reaches g a b := by
  intro f
  induction f with
  | zero =>
    intro a b h
    simp only [reachWithin, beq_iff_eq] at h
    exact h ▸ reaches_refl g a
  | succ f ih =>
    intro a b h
    simp only [reachWithin, Bool.or_eq_true, beq_iff_eq, List.any_eq_true] at h
    rcases h with h | ⟨c, hc, hr⟩
    · exact h ▸ reaches_refl g a
    · obtain ⟨l, hl⟩ := ih c b hr
      exact ⟨c :: l, (mem_succs g a c).mp hc, hl⟩

lemma isWalk_reachWithin (g : DiGraph) :
    ∀ (l : List String) (a b : String), isWalk g a b l →
      reachWithin g l.length a b = true := by
  intro l
  induction l with
  | nil =>
    intro a b h
    simp only [isWalk] at h
    simp [reachWithin, h]
  | cons c l ih =>
    intro a b h
    obtain ⟨he, hw⟩ := h
    simp only [List.length_cons, reachWithin, Bool.or_eq_true, List.any_eq_true]
    exact Or.inr ⟨c, (mem_succs g a c).mpr he, ih c b hw⟩

lemma reachWithin_zero_def (g : DiGraph) (a b : String) :
    reachWithin g 0 a b = (a == b) := rfl

lemma reachWithin_succ_def (g : DiGraph) (f : Nat) (a b : String) :
    reachWithin g (f + 1) a b =
      (a == b || (succs g a).any (fun c => reachWithin g f c b)) := rfl

lemma reachWithin_succ (g : DiGraph) :
    ∀ (f : Nat) (a b : String), reachWithin g f a b = true →
      reachWithin g (f + 1) a b = true := by
  intro f
  induction f with
  | zero =>
    intro a b h
    rw [reachWithin_zero_def, beq_iff_eq] at h
    subst h
    simp [reachWithin_succ_def]
  | succ f ih =>
    intro a b h
    rw [reachWithin_succ_def] at h
    rw [reachWithin_succ_def]
    simp only [Bool.or_eq_true, List.any_eq_true] at h ⊢
    rcases h with h | ⟨c, hc, hr⟩
    · exact Or.inl h
    · exact Or.inr ⟨c, hc, ih c b hr⟩

lemma reachWithin_mono (g : DiGraph) {f f' : Nat} (h : f ≤ f') (a b : String)
    (hr : reachWithin g f a b = true) : reachWithin g f' a b = true := by
  induction f' with
  | zero =>
    have h0 : f = 0 := Nat.le_zero.mp h
    subst h0
    exact hr
  | succ f' ih =>
    rcases Nat.le_succ_iff.mp h with h' | h'
    · exact reachWithin_succ g f' a b (ih h')
    · subst h'
      exact hr

lemma isWalk_of_append (g : DiGraph) {b c : String} :
    ∀ (l₁ : List String) (a : String) (l₂ : List String),
      isWalk g a b (l₁ ++ c :: l₂) → isWalk g c b l₂ := by
  intro l₁
  induction l₁ with
  | nil => intro a l₂ h; exact h.2
  | cons d l₁ ih =>
    intro a l₂ h
    exact ih d l₂ h.2

/-- Every walk can be shortened to a walk visiting pairwise distinct nodes. -/
lemma exists_nodup_walk (g : DiGraph) :
    ∀ (l : List String) (a b : String), isWalk g a b l →
      ∃ l', isWalk g a b l' ∧ l'.length ≤ l.length ∧ (a :: l').Nodup := by
  intro l
  induction l with
  | nil =>
    intro a b h
    exact ⟨[], h, Nat.le_refl _, List.nodup_singleton a⟩
  | cons c l' ih =>
    intro a b h
    obtain ⟨he, hw⟩ := h
    obtain ⟨l'', hw'', hlen'', hnd''⟩ := ih c b hw
    by_cases hac : a = c
    · subst hac
      exact ⟨l'', hw'', Nat.le_succ_of_le hlen'', hnd''⟩
    by_cases ha : a ∈ l''
    · obtain ⟨s, t, hst⟩ := List.append_of_mem ha
      subst hst
      have hwt : isWalk g a b t := isWalk_of_append g s c t hw''
      have hndt : (a :: t).Nodup := (List.nodup_cons.mp hnd'').2.of_append_right
      have hlent : t.length ≤ l'.length := by
        have := hlen''
        simp only [List.length_append, List.length_cons] at this
        omega
      exact ⟨t, hwt, Nat.le_succ_of_le hlent, hndt⟩
    · refine ⟨c :: l'', ⟨he, hw''⟩, Nat.succ_le_succ hlen'', ?_⟩
      refine List.nodup_cons.mpr ⟨?_, hnd''⟩
      simp only [List.mem_cons]
      rintro (h | h)
      · exact hac h
      · exact ha h

lemma walkEdges_subset (g : DiGraph) :
    ∀ (l : List String) (a b : String), isWalk g a b l →
      ∀ e ∈ walkEdges a l, e ∈ g.edges := by
  intro l
  induction l with
  | nil => intro a b _ e he; simp [walkEdges] at he
  | cons c l ih =>
    intro a b h e he
    obtain ⟨hac, hw⟩ := h
    simp only [walkEdges, List.mem_cons] at he
    rcases he with he | he
    · exact he ▸ hac
    · exact ih c b hw e he

lemma walkEdges_map_snd :
    ∀ (l : List String) (a : String), (walkEdges a l).map Prod.snd = l := by
  intro l
  induction l with
  | nil => intro a; rfl
  | cons c l ih => intro a; simp [walkEdges, ih c]

lemma walkEdges_length :
    ∀ (l : List String) (a : String), (walkEdges a l).length = l.length := by
  intro l
  induction l with
  | nil => intro a; rfl
  | cons c l ih => intro a; simp [walkEdges, ih c]

/-- A duplicate-free walk cannot be longer than the edge list: its traversed
edges are pairwise distinct members of `g.edges`. -/
lemma walk_length_le_of_nodup (g : DiGraph) {a b : String} {l : List String}
    (h : isWalk g a b l) (hnd : (a :: l).Nodup) : l.length ≤ g.edges.length := by
  have hlnd : l.Nodup := (List.nodup_cons.mp hnd).2
  have hednd : (walkEdges a l).Nodup := by
    apply List.Nodup.of_map Prod.snd
    rw [walkEdges_map_snd l a]
    exact hlnd
  have hsub : (walkEdges a l).toFinset ⊆ g.edges.toFinset := by
    intro e he
    rw [List.mem_toFinset] at he ⊢
    exact walkEdges_subset g l a b h e he
  calc l.length = (walkEdges a l).length := (walkEdges_length l a).symm
    _ = (walkEdges a l).toFinset.card := (List.toFinset_card_of_nodup hednd).symm
    _ ≤ g.edges.toFinset.card := Finset.card_le_card hsub
    _ ≤ g.edges.length := List.toFinset_card_le g.edges

lemma reaches_reachableFrom (g : DiGraph) {a b : String} (h : Reaches g a b) :
    reachableFrom g a b = true := by
  obtain ⟨l, hl⟩ := h
  obtain ⟨l', hw', hlen', hnd'⟩ := exists_nodup_walk g l a b hl
  have hle : l'.length ≤ g.edges.length := walk_length_le_of_nodup g hw' hnd'
  exact reachWithin_mono g hle a b (isWalk_reachWithin g l' a b hw')

/-- `reachableFrom` decides directed reachability. -/
lemma reachableFrom_iff (g : DiGraph) (a b : String) :
    reachableFrom g a b = true ↔ Reaches g a b :=
  ⟨reachWithin_sound g g.edges.length a b, reaches_reachableFrom g⟩

lemma isWalk_last_edge (g : DiGraph) :
    ∀ (l : List String) (a b c : String), isWalk g a b (c :: l) →
      ∃ x, (x, b) ∈ g.edges := by
  intro l
  induction l with
  | nil =>
    intro a b c h
    obtain ⟨he, hw⟩ := h
    rw [isWalk_nil] at hw
    exact ⟨a, hw ▸ he⟩
  | cons d l ih =>
    intro a b c h
    exact ih c b d h.2

/-- A node reached from `a` by a nonempty path is a graph node. -/
lemma reaches_mem_target (g : DiGraph) (hWF : EdgesWF g) {a b : String}
    (h : Reaches g a b) (hne : a ≠ b) : b ∈ g.nodes := by
  obtain ⟨l, hl⟩ := h
  cases l with
  | nil => exact absurd hl hne
  | cons c l' =>
    obtain ⟨x, hx⟩ := isWalk_last_edge g l' a b c hl
    exact (hWF (x, b) hx).2

/-- A node that reaches `b` by a nonempty path is a graph node. -/
lemma reaches_mem_source (g : DiGraph) (hWF : EdgesWF g) {a b : String}
    (h : Reaches g a b) (hne : a ≠ b) : a ∈ g.nodes := by
  obtain ⟨l, hl⟩ := h
  cases l with
  | nil => exact absurd hl hne
  | cons c l' => exact (hWF (a, c) hl.1).1

lemma hasCycleB_iff (g : DiGraph) :
    hasCycleB g = true ↔ ∃ x l, l ≠ [] ∧ isWalk g x x l := by
  unfold hasCycleB
  rw [List.any_eq_true]
  constructor
  · rintro ⟨e, he, hr⟩
    obtain ⟨l, hl⟩ := (reachableFrom_iff g e.2 e.1).mp hr
    exact ⟨e.1, e.2 :: l, List.cons_ne_nil _ _, ⟨by simpa using he, hl⟩⟩
  · rintro ⟨x, l, hne, hw⟩
    cases l with
    | nil => exact absurd rfl hne
    | cons c l' =>
      obtain ⟨he, hw'⟩ := hw
      exact ⟨(x, c), he, (reachableFrom_iff g c x).mpr ⟨l', hw'⟩⟩

/-- Membership characterization of the closure: on a well-formed graph whose
target is a node, the returned set is exactly the set of nodes connected to
the target by a directed path in one direction or the other. -/
lemma collect_spec (g : DiGraph) (t : String) (hWF : EdgesWF g)
    (ht : t ∈ g.nodes) :
    collect_connected_classes g t =
      .ok (t :: (descendants g t ++ ancestors g t)) ∧
    ∀ n, n ∈ t :: (descendants g t ++ ancestors g t) ↔
      (Reaches g t n ∨ Reaches g n t) := by
  refine ⟨by simp [collect_connected_classes, ht], fun n => ?_⟩
  simp only [List.mem_cons, List.mem_append, descendants, ancestors,
    List.mem_filter, Bool.and_eq_true, Bool.not_eq_eq_eq_not, Bool.not_true,
    beq_eq_false_iff_ne, ne_eq]
  constructor
  · rintro (h | ⟨_, _, h⟩ | ⟨_, _, h⟩)
    · exact Or.inl (h ▸ reaches_refl g t)
    · exact Or.inl ((reachableFrom_iff g t n).mp h)
    · exact Or.inr ((reachableFrom_iff g n t).mp h)
  · rintro (h | h)
    · by_cases hnt : n = t
      · exact Or.inl hnt
      · refine Or.inr (Or.inl ⟨reaches_mem_target g hWF h (Ne.symm hnt), ?_, ?_⟩)
        · simpa using hnt
        · exact reaches_reachableFrom g h
    · by_cases hnt : n = t
      · exact Or.inl hnt
      · refine Or.inr (Or.inr ⟨reaches_mem_source g hWF h hnt, ?_, ?_⟩)
        · simpa using hnt
        · exact reaches_reachableFrom g h

lemma precedes_cons {l : List String} {u v : String} (n : String)
    (h : Precedes l u v) : Precedes (n :: l) u v := by
  obtain ⟨i, j, hij, hi, hj⟩ := h
  exact ⟨i.succ, j.succ, Fin.succ_lt_succ_iff.mpr hij, hi, hj⟩

lemma precedes_head {l : List String} {v : String} (n : String) (h : v ∈ l) :
    Precedes (n :: l) n v := by
  obtain ⟨k, hk⟩ := List.get_of_mem h
  exact ⟨⟨0, Nat.succ_pos _⟩, k.succ, Nat.succ_pos _, rfl, hk⟩

lemma precedes_trans {l : List String} (hnd : l.Nodup) {u v w : String}
    (h₁ : Precedes l u v) (h₂ : Precedes l v w) : Precedes l u w := by
  obtain ⟨i, j, hij, hi, hj⟩ := h₁
  obtain ⟨i', j', hij', hi', hj'⟩ := h₂
  have hj_eq : j = i' := (hnd.get_inj_iff).mp (hi' ▸ hj)
  exact ⟨i, j', lt_trans (hj_eq ▸ hij) hij', hi, hj'⟩

lemma precedes_irrefl {l : List String} (hnd : l.Nodup) (u : String) :
    ¬ Precedes l u u := by
  rintro ⟨i, j, hij, hi, hj⟩
  have : i = j := (hnd.get_inj_iff).mp (hj ▸ hi)
  exact absurd (this ▸ hij) (lt_irrefl i)

lemma pickZero_some (g : DiGraph) {rem : List String} {n : String}
    (h : pickZero g rem = some n) :
    n ∈ rem ∧ ∀ e ∈ g.edges, ¬(e.2 = n ∧ e.1 ∈ rem) := by
  refine ⟨List.mem_of_find?_eq_some h, ?_⟩
  have hp := List.find?_some h
  simp only [Bool.not_eq_true', List.any_eq_false, Bool.and_eq_true,
    beq_iff_eq, decide_eq_true_eq, not_and] at hp
  intro e he hc
  have := hp e he
  simp only [hc.1, hc.2, not_true_eq_false, and_true] at this
  exact this trivial

lemma pickZero_none (g : DiGraph) {rem : List String}
    (h : pickZero g rem = none) :
    ∀ n ∈ rem, ∃ e ∈ g.edges, e.2 = n ∧ e.1 ∈ rem := by
  intro n hn
  have hfind := List.find?_eq_none.mp h n hn
  have hany : (g.edges.any fun e => e.2 == n && decide (e.1 ∈ rem)) = true := by
    cases hb : (g.edges.any fun e => e.2 == n && decide (e.1 ∈ rem)) with
    | true => rfl
    | false => exact absurd (by simp [hb]) hfind
  simp only [List.any_eq_true, Bool.and_eq_true, beq_iff_eq,
    decide_eq_true_eq] at hany
  obtain ⟨e, he, h2, h1⟩ := hany
  exact ⟨e, he, h2, h1⟩

lemma kahnAux_succ_def (g : DiGraph) (f : Nat) (rem : List String) :
    kahnAux g (f + 1) rem =
      if rem.isEmpty then some []
      else
        match pickZero g rem with
        | none => none
        | some n => (kahnAux g f (rem.erase n)).map (fun l => n :: l) := rfl

/-- Destructs a successful step of `kahnAux` at positive fuel on a nonempty
remainder: some in-degree-zero node was picked and the recursion succeeded. -/
lemma kahnAux_succ_some (g : DiGraph) {f : Nat} {rem l : List String}
    (hne : rem ≠ []) (h : kahnAux g (f + 1) rem = some l) :
    ∃ n l', pickZero g rem = some n ∧
      kahnAux g f (rem.erase n) = some l' ∧ l = n :: l' := by
  rw [kahnAux_succ_def] at h
  have hre : rem.isEmpty = false := by
    cases rem with
    | nil => exact absurd rfl hne
    | cons a as => rfl
  rw [hre] at h
  simp only [Bool.false_eq_true, if_false] at h
  cases hp : pickZero g rem with
  | none => rw [hp] at h; exact absurd h (by simp)
  | some n =>
    rw [hp] at h
    have h' : Option.map (fun l => n :: l) (kahnAux g f (rem.erase n)) =
        some l := h
    cases hk : kahnAux g f (rem.erase n) with
    | none => rw [hk] at h'; exact absurd h' (by simp)
    | some l' =>
      rw [hk] at h'
      simp only [Option.map_some', Option.some.injEq] at h'
      exact ⟨n, l', rfl, hk, h'.symm⟩

lemma kahnAux_some_of_nil (g : DiGraph) {f : Nat} {l : List String}
    (h : kahnAux g f [] = some l) : l = [] := by
  cases f with
  | zero => simpa [kahnAux] using h.symm
  | succ f =>
    rw [kahnAux_succ_def] at h
    simpa using h.symm

lemma kahnAux_perm (g : DiGraph) :
    ∀ (f : Nat) (rem l : List String), kahnAux g f rem = some l →
      l.Perm rem := by
  intro f
  induction f with
  | zero =>
    intro rem l h
    cases rem with
    | nil =>
      have := kahnAux_some_of_nil g h
      subst this
      exact List.Perm.refl []
    | cons a as => simp [kahnAux] at h
  | succ f ih =>
    intro rem l h
    cases rem with
    | nil =>
      have := kahnAux_some_of_nil g h
      subst this
      exact List.Perm.refl []
    | cons a as =>
      obtain ⟨n, l', hp, hk, rfl⟩ :=
        kahnAux_succ_some g (List.cons_ne_nil a as) h
      have hn : n ∈ a :: as := (pickZero_some g hp).1
      exact ((ih _ l' hk).cons n).trans (List.perm_cons_erase hn).symm

lemma kahnAux_valid (g : DiGraph) :
    ∀ (f : Nat) (rem l : List String), kahnAux g f rem = some l →
      ∀ u v, (u, v) ∈ g.edges → u ∈ rem → v ∈ rem → Precedes l u v := by
  intro f
  induction f with
  | zero =>
    intro rem l h u v he hu hv
    cases rem with
    | nil => exact absurd hu (List.not_mem_nil u)
    | cons a as => simp [kahnAux] at h
  | succ f ih =>
    intro rem l h u v he hu hv
    cases hrem : rem with
    | nil =>
      subst hrem
      exact absurd hu (List.not_mem_nil u)
    | cons a as =>
      subst hrem
      obtain ⟨n, l', hp, hk, rfl⟩ :=
        kahnAux_succ_some g (List.cons_ne_nil a as) h
      obtain ⟨hn, hblock⟩ := pickZero_some g hp
      have hvn : v ≠ n := by
        rintro rfl
        exact hblock (u, v) he ⟨rfl, hu⟩
      by_cases hun : u = n
      · subst hun
        have hv' : v ∈ (a :: as).erase u := (List.mem_erase_of_ne hvn).mpr hv
        have : v ∈ l' := ((kahnAux_perm g f _ l' hk).mem_iff).mpr hv'
        exact precedes_head u this
      · have hu' : u ∈ (a :: as).erase n := (List.mem_erase_of_ne hun).mpr hu
        have hv' : v ∈ (a :: as).erase n := (List.mem_erase_of_ne hvn).mpr hv
        exact precedes_cons n (ih _ l' hk u v he hu' hv')

/-- A duplicate-free list contained in `r` is no longer than `r`. -/
lemma nodup_length_le_of_subset {l r : List String} (hnd : l.Nodup)
    (hsub : ∀ m ∈ l, m ∈ r) : l.length ≤ r.length := by
  calc l.length = l.toFinset.card := (List.toFinset_card_of_nodup hnd).symm
    _ ≤ r.toFinset.card := by
        apply Finset.card_le_card
        intro x hx
        rw [List.mem_toFinset] at hx ⊢
        exact hsub x hx
    _ ≤ r.length := List.toFinset_card_le r

lemma isWalk_prefix (g : DiGraph) {b : String} :
    ∀ (l₁ : List String) (a c : String) (l₂ : List String),
      isWalk g a b (l₁ ++ c :: l₂) → isWalk g a c (l₁ ++ [c]) := by
  intro l₁
  induction l₁ with
  | nil =>
    intro a c l₂ h
    exact ⟨h.1, rfl⟩
  | cons d l₁ ih =>
    intro a c l₂ h
    exact ⟨h.1, ih d c l₂ h.2⟩

/-- If every node of a nonempty set has an incoming edge from the set, the
graph contains a directed cycle. -/
lemma cycle_of_all_preds (g : DiGraph) {rem : List String} (hne : rem ≠ [])
    (h : ∀ n ∈ rem, ∃ e ∈ g.edges, e.2 = n ∧ e.1 ∈ rem) :
    ∃ x l, l ≠ [] ∧ isWalk g x x l := by
  obtain ⟨n₀, hn₀⟩ := List.exists_mem_of_ne_nil rem hne
  have key : ∀ k : Nat, (∃ x l, l ≠ [] ∧ isWalk g x x l) ∨
      (∃ x l, isWalk g x n₀ l ∧ l.length = k ∧ (x :: l).Nodup ∧
        ∀ m ∈ x :: l, m ∈ rem) := by
    intro k
    induction k with
    | zero =>
      refine Or.inr ⟨n₀, [], rfl, rfl, List.nodup_singleton n₀, ?_⟩
      intro m hm
      rw [List.mem_singleton] at hm
      exact hm ▸ hn₀
    | succ k ihk =>
      rcases ihk with hcyc | ⟨x, l, hw, hlen, hnd, hmem⟩
      · exact Or.inl hcyc
      · obtain ⟨e, he, h2, h1⟩ := h x (hmem x (List.mem_cons_self x l))
        have he' : (e.1, x) ∈ g.edges := by
          rw [← h2]
          exact he
        by_cases hx' : e.1 ∈ x :: l
        · left
          rcases List.mem_cons.mp hx' with heq | hmem'
          · exact ⟨x, [x], List.cons_ne_nil x [], heq ▸ he', rfl⟩
          · obtain ⟨s, t, hst⟩ := List.append_of_mem hmem'
            subst hst
            have hwp : isWalk g x e.1 (s ++ [e.1]) := isWalk_prefix g s x e.1 t hw
            exact ⟨e.1, x :: (s ++ [e.1]), List.cons_ne_nil _ _, he', hwp⟩
        · right
          refine ⟨e.1, x :: l, ⟨he', hw⟩, by simp [hlen], ?_, ?_⟩
          · exact List.nodup_cons.mpr ⟨hx', hnd⟩
          · intro m hm
            rcases List.mem_cons.mp hm with rfl | hm'
            · exact h1
            · exact hmem m hm'
  rcases key rem.length with hcyc | ⟨x, l, _, hlen, hnd, hmem⟩
  · exact hcyc
  · exfalso
    have := nodup_length_le_of_subset hnd hmem
    simp only [List.length_cons, hlen] at this
    omega

lemma kahnAux_total (g : DiGraph)
    (hnc : ¬ ∃ x l, l ≠ [] ∧ isWalk g x x l) :
    ∀ (k : Nat) (rem : List String), rem.length = k →
      ∃ l, kahnAux g k rem = some l := by
  intro k
  induction k with
  | zero =>
    intro rem hlen
    have : rem = [] := List.length_eq_zero.mp hlen
    subst this
    exact ⟨[], rfl⟩
  | succ k ih =>
    intro rem hlen
    have hne : rem ≠ [] := by
      intro hre
      subst hre
      simp at hlen
    have hre : rem.isEmpty = false := by
      rw [List.isEmpty_eq_false_iff_exists_mem]
      exact List.exists_mem_of_ne_nil rem hne
    cases hp : pickZero g rem with
    | none => exact absurd (cycle_of_all_preds g hne (pickZero_none g hp)) hnc
    | some n =>
      have hn : n ∈ rem := (pickZero_some g hp).1
      have hlen' : (rem.erase n).length = k := by
        rw [List.length_erase_of_mem hn, hlen]
        rfl
      obtain ⟨l', hl'⟩ := ih (rem.erase n) hlen'
      refine ⟨n :: l', ?_⟩
      simp [kahnAux, hre, hp, hl']

lemma precedes_of_walk (g : DiGraph) {l : List String} (hnd : l.Nodup)
    (hval : ∀ u v, (u, v) ∈ g.edges → Precedes l u v) :
    ∀ (ls : List String) (x y : String), ls ≠ [] → isWalk g x y ls →
      Precedes l x y := by
  intro ls
  induction ls with
  | nil => intro x y hne _; exact absurd rfl hne
  | cons c ls ih =>
    intro x y _ hw
    obtain ⟨he, hw'⟩ := hw
    cases ls with
    | nil =>
      rw [isWalk_nil] at hw'
      exact hw' ▸ hval x c he
    | cons d ls' =>
      exact precedes_trans hnd (hval x c he)
        (ih c y (List.cons_ne_nil d ls') hw')

/-- On a well-formed duplicate-free graph with a directed cycle,
`nx.topological_sort` fails. -/
lemma topological_sort_none_of_cycle (g : DiGraph) (hWF : EdgesWF g)
    (hnd : g.nodes.Nodup) (hcyc : hasCycleB g = true) :
    topological_sort g = none := by
  cases h : topological_sort g with
  | none => rfl
  | some l =>
    exfalso
    have hperm := kahnAux_perm g g.nodes.length g.nodes l h
    have hlnd : l.Nodup := (hperm.nodup_iff).mpr hnd
    obtain ⟨x, lc, hne, hw⟩ := (hasCycleB_iff g).mp hcyc
    have hval : ∀ u v, (u, v) ∈ g.edges → Precedes l u v := by
      intro u v he
      exact kahnAux_valid g g.nodes.length g.nodes l h u v he
        (hWF (u, v) he).1 (hWF (u, v) he).2
    exact precedes_irrefl hlnd x (precedes_of_walk g hlnd hval lc x x hne hw)

/-- On an acyclic graph, `nx.topological_sort` succeeds. -/
lemma topological_sort_some_of_acyclic (g : DiGraph)
    (hacyc : hasCycleB g = false) : ∃ l, topological_sort g = some l := by
  apply kahnAux_total g _ g.nodes.length g.nodes rfl
  intro hc
  rw [← hasCycleB_iff g] at hc
  rw [hacyc] at hc
  exact Bool.false_ne_true hc

lemma succs_subset (g : DiGraph) (hWF : EdgesWF g) (n : String) :
    succs g n ⊆ g.nodes := by
  intro m hm
  exact (hWF (n, m) ((mem_succs g n m).mp hm)).2

lemma dfsVisit_visited (g : DiGraph) :
    ∀ (f : Nat) (n : String) (st : List String × List String),
      n ∈ st.1 → dfsVisit g f n st = st := by
  intro f n st h
  cases f with
  | zero => rfl
  | succ f => simp [dfsVisit, h]

lemma dfsVisit_not_visited (g : DiGraph) (f : Nat) (n : String)
    (vis ord : List String) (h : n ∉ vis) :
    dfsVisit g (f + 1) n (vis, ord) =
      (((succs g n).foldl (fun acc nb => dfsVisit g f nb acc)
          (n :: vis, ord)).1,
       ((succs g n).foldl (fun acc nb => dfsVisit g f nb acc)
          (n :: vis, ord)).2 ++ [n]) := by
  simp [dfsVisit, h]

lemma dfsOut_refl (g : DiGraph) (vis ord : List String) (hnd : vis.Nodup)
    (hsub : vis ⊆ g.nodes) : DfsOut g vis ord (vis, ord) :=
  ⟨⟨[], rfl⟩, hnd, hsub, fun _ hp => hp⟩

lemma dfsOut_trans (g : DiGraph) {vis ord : List String}
    {st st' : List String × List String} (h1 : DfsOut g vis ord st)
    (h2 : DfsOut g st.1 st.2 st') : DfsOut g vis ord st' := by
  obtain ⟨⟨d1, hd1⟩, _, _, hp1⟩ := h1
  obtain ⟨⟨d2, hd2⟩, hnd2, hsub2, hp2⟩ := h2
  refine ⟨⟨d2 ++ d1, ?_⟩, hnd2, hsub2, ?_⟩
  · rw [hd2, hd1, List.append_assoc]
  · intro p hp
    exact hp2 p (hp1 p hp)

lemma dfsOut_length_le (g : DiGraph) {vis ord : List String}
    {st : List String × List String} (h : DfsOut g vis ord st) :
    vis.length ≤ st.1.length := by
  obtain ⟨⟨d, hd⟩, _, _, _⟩ := h
  rw [hd, List.length_append]
  omega

lemma dfsOut_mem (g : DiGraph) {vis ord : List String}
    {st : List String × List String} (h : DfsOut g vis ord st) :
    ∀ m ∈ vis, m ∈ st.1 := by
  obtain ⟨⟨d, hd⟩, _, _, _⟩ := h
  intro m hm
  rw [hd]
  exact List.mem_append_right d hm

/-- Main invariant of the DFS fallback, established for visits and for
left folds of visits simultaneously by strong induction on the fuel: with
enough fuel the visited list absorbs the processed nodes while its
difference with the post-order list is preserved. -/
lemma dfs_main (g : DiGraph) (hWF : EdgesWF g) :
    ∀ f : Nat,
      (∀ (n : String) (vis ord : List String),
        n ∈ g.nodes → vis ⊆ g.nodes → vis.Nodup →
        (n ∈ vis ∨ g.nodes.length - vis.length ≤ f) →
        DfsOut g vis ord (dfsVisit g f n (vis, ord)) ∧
          n ∈ (dfsVisit g f n (vis, ord)).1) ∧
      (∀ (ns vis ord : List String),
        ns ⊆ g.nodes → vis ⊆ g.nodes → vis.Nodup →
        g.nodes.length - vis.length ≤ f →
        DfsOut g vis ord
            (ns.foldl (fun acc nb => dfsVisit g f nb acc) (vis, ord)) ∧
          ∀ m ∈ ns,
            m ∈ (ns.foldl (fun acc nb => dfsVisit g f nb acc) (vis, ord)).1) := by
  intro f
  induction f using Nat.strong_induction_on with
  | _ f ih =>
  have hV : ∀ (n : String) (vis ord : List String),
      n ∈ g.nodes → vis ⊆ g.nodes → vis.Nodup →
      (n ∈ vis ∨ g.nodes.length - vis.length ≤ f) →
      DfsOut g vis ord (dfsVisit g f n (vis, ord)) ∧
        n ∈ (dfsVisit g f n (vis, ord)).1 := by
    intro n vis ord hn hvsub hvnd hfuel
    by_cases hnv : n ∈ vis
    · rw [dfsVisit_visited g f n (vis, ord) hnv]
      exact ⟨dfsOut_refl g vis ord hvnd hvsub, hnv⟩
    · have hbound : g.nodes.length - vis.length ≤ f := hfuel.resolve_left hnv
      have hlt : vis.length < g.nodes.length := by
        have hnd' : (n :: vis).Nodup := List.nodup_cons.mpr ⟨hnv, hvnd⟩
        have hsub' : ∀ m ∈ n :: vis, m ∈ g.nodes := by
          intro m hm
          rcases List.mem_cons.mp hm with rfl | hm'
          · exact hn
          · exact hvsub hm'
        have := nodup_length_le_of_subset hnd' hsub'
        simp only [List.length_cons] at this
        omega
      obtain ⟨f', rfl⟩ : ∃ f', f = f' + 1 := by
        cases f with
        | zero => omega
        | succ f' => exact ⟨f', rfl⟩
      rw [dfsVisit_not_visited g f' n vis ord hnv]
      have hL' := (ih f' (Nat.lt_succ_self f')).2 (succs g n) (n :: vis) ord
        (succs_subset g hWF n)
        (by
          intro m hm
          rcases List.mem_cons.mp hm with rfl | hm'
          · exact hn
          · exact hvsub hm')
        (List.nodup_cons.mpr ⟨hnv, hvnd⟩)
        (by simp only [List.length_cons]; omega)
      obtain ⟨⟨⟨d, hd⟩, hnd1, hsub1, hperm1⟩, _⟩ := hL'
      constructor
      · refine ⟨⟨d ++ [n], ?_⟩, hnd1, hsub1, ?_⟩
        · rw [hd, List.append_assoc, List.singleton_append]
        · intro p hp
          have hp' : (n :: vis).Perm (ord ++ (n :: p)) :=
            (hp.cons n).trans List.perm_middle.symm
          have := hperm1 (n :: p) hp'
          rw [List.append_assoc, List.singleton_append]
          exact this
      · rw [hd]
        exact List.mem_append_right d (List.mem_cons_self n vis)
  have hL : ∀ (ns vis ord : List String),
      ns ⊆ g.nodes → vis ⊆ g.nodes → vis.Nodup →
      g.nodes.length - vis.length ≤ f →
      DfsOut g vis ord
          (ns.foldl (fun acc nb => dfsVisit g f nb acc) (vis, ord)) ∧
        ∀ m ∈ ns,
          m ∈ (ns.foldl (fun acc nb => dfsVisit g f nb acc) (vis, ord)).1 := by
    intro ns
    induction ns with
    | nil =>
      intro vis ord _ hvsub hvnd _
      refine ⟨dfsOut_refl g vis ord hvnd hvsub, ?_⟩
      intro m hm
      exact absurd hm (List.not_mem_nil m)
    | cons nb rest ihns =>
      intro vis ord hnssub hvsub hvnd hfuel
      have hst1 := hV nb vis ord (hnssub (List.mem_cons_self nb rest)) hvsub
        hvnd (Or.inr hfuel)
      obtain ⟨hout1, hmem1⟩ := hst1
      have hfuel2 : g.nodes.length -
          (dfsVisit g f nb (vis, ord)).1.length ≤ f := by
        have hle := dfsOut_length_le g hout1
        omega
      have h2 := ihns (dfsVisit g f nb (vis, ord)).1
        (dfsVisit g f nb (vis, ord)).2
        (fun m hm => hnssub (List.mem_cons_of_mem nb hm))
        hout1.2.2.1 hout1.2.1 hfuel2
      obtain ⟨hout2, hmem2⟩ := h2
      rw [List.foldl_cons]
      constructor
      · exact dfsOut_trans g hout1 hout2
      · intro m hm
        rcases List.mem_cons.mp hm with rfl | hm'
        · exact dfsOut_mem g hout2 m hmem1
        · exact hmem2 m hm'
  exact ⟨hV, hL⟩

/-- The DFS post-order pass emits every graph node exactly once. -/
lemma dfsPostorder_perm (g : DiGraph) (hWF : EdgesWF g)
    (hnd : g.nodes.Nodup) : (dfsPostorder g).Perm g.nodes := by
  have h := (dfs_main g hWF (g.nodes.length + 1)).2 g.nodes [] []
    (fun _ hm => hm) (fun m hm => absurd hm (List.not_mem_nil m))
    List.nodup_nil (by omega)
  obtain ⟨⟨⟨d, hd⟩, hnd1, hsub1, hperm1⟩, hcov⟩ := h
  have hperm2 := hperm1 [] (by simp)
  rw [List.append_nil] at hperm2
  have hst1 : ((g.nodes.foldl
      (fun acc n => dfsVisit g (g.nodes.length + 1) n acc) ([], [])).1).Perm
      g.nodes := by
    apply List.Subperm.antisymm
    · exact List.Nodup.subperm hnd1 hsub1
    · exact List.Nodup.subperm hnd (fun m hm => hcov m hm)
  exact hperm2.symm.trans hst1

lemma inducedSubgraph_WF (g : DiGraph) (hWF : EdgesWF g) (ns : List String) :
    EdgesWF (inducedSubgraph g ns) := by
  intro e he
  simp only [inducedSubgraph, List.mem_filter, Bool.and_eq_true,
    decide_eq_true_eq] at he ⊢
  obtain ⟨heg, h1, h2⟩ := he
  exact ⟨⟨(hWF e heg).1, h1⟩, ⟨(hWF e heg).2, h2⟩⟩

/-- C1: for every well-formed dependency graph and every node `t` present
in it, `collect_connected_classes(G, t)` succeeds and returns exactly
`descendants(t) ∪ ancestors(t) ∪ {t}`: `t` itself is a member, and a node
is in the result if and only if there is a directed path from `t` to it or
from it to `t`. -/
theorem claim_C1_closure (g : DiGraph) (t : String) (hWF : EdgesWF g)
    (ht : t ∈ g.nodes) :
    ∃ res, collect_connected_classes g t = .ok res ∧ t ∈ res ∧
      ∀ n, n ∈ res ↔ (Reaches g t n ∨ Reaches g n t) := by
  obtain ⟨heq, hiff⟩ := collect_spec g t hWF ht
  exact ⟨_, heq, (hiff t).mpr (Or.inl (reaches_refl g t)), hiff⟩

/-- Witness for C1 on the concrete graph `A → B` with isolated node `C`. -/
theorem claim_C1_witness :
    ∃ res,
      collect_connected_classes ⟨["A", "B", "C"], [("A", "B")]⟩ "A" =
        .ok res ∧ "A" ∈ res ∧
      ∀ n, n ∈ res ↔
        (Reaches ⟨["A", "B", "C"], [("A", "B")]⟩ "A" n ∨
         Reaches ⟨["A", "B", "C"], [("A", "B")]⟩ n "A") :=
  claim_C1_closure ⟨["A", "B", "C"], [("A", "B")]⟩ "A" (by decide) (by decide)

/-- C2: whenever the induced subgraph is acyclic, the ordering is a valid
topological order: for every edge `u → v` of the graph with both endpoints
in the requested node set, `u` appears strictly before `v` in the output. -/
theorem claim_C2_topological_order (g : DiGraph) (ns : List String)
    (hWF : EdgesWF g)
    (hacyc : hasCycleB (inducedSubgraph g ns) = false) :
    ∀ u v, (u, v) ∈ g.edges → u ∈ ns → v ∈ ns →
      Precedes (topologically_order_subgraph g ns) u v := by
  intro u v he hu hv
  obtain ⟨l, hl⟩ :=
    topological_sort_some_of_acyclic (inducedSubgraph g ns) hacyc
  have hres : topologically_order_subgraph g ns = l := by
    simp only [topologically_order_subgraph]
    rw [hl]
  rw [hres]
  have hue : (u, v) ∈ (inducedSubgraph g ns).edges := by
    simp only [inducedSubgraph, List.mem_filter, Bool.and_eq_true,
      decide_eq_true_eq]
    exact ⟨he, hu, hv⟩
  have hun : u ∈ (inducedSubgraph g ns).nodes := by
    simp only [inducedSubgraph, List.mem_filter, decide_eq_true_eq]
    exact ⟨(hWF (u, v) he).1, hu⟩
  have hvn : v ∈ (inducedSubgraph g ns).nodes := by
    simp only [inducedSubgraph, List.mem_filter, decide_eq_true_eq]
    exact ⟨(hWF (u, v) he).2, hv⟩
  exact kahnAux_valid (inducedSubgraph g ns) _ _ l hl u v hue hun hvn

/-- Witness for C2 on the acyclic graph `A → B`. -/
theorem claim_C2_witness :
    Precedes (topologically_order_subgraph ⟨["A", "B"], [("A", "B")]⟩
      ["A", "B"]) "A" "B" :=
  claim_C2_topological_order ⟨["A", "B"], [("A", "B")]⟩ ["A", "B"]
    (by decide) (by decide) "A" "B" (by decide) (by decide) (by decide)

/-- C3: when the induced subgraph contains a cycle, the ordering still
terminates, equals the reverse of the depth-first post-order traversal over
the subgraph's node enumeration (successors visited before a node is
appended), and is a permutation of exactly the requested node set. -/
theorem claim_C3_cycle_fallback (g : DiGraph) (ns : List String)
    (hWF : EdgesWF g) (hgnd : g.nodes.Nodup) (hsub : ns ⊆ g.nodes)
    (hnsnd : ns.Nodup)
    (hcyc : hasCycleB (inducedSubgraph g ns) = true) :
    topologically_order_subgraph g ns =
      (dfsPostorder (inducedSubgraph g ns)).reverse ∧
    (topologically_order_subgraph g ns).Perm ns := by
  have hsubWF := inducedSubgraph_WF g hWF ns
  have hsubnd : (inducedSubgraph g ns).nodes.Nodup := hgnd.filter _
  have hnone :=
    topological_sort_none_of_cycle (inducedSubgraph g ns) hsubWF hsubnd hcyc
  have hres : topologically_order_subgraph g ns =
      (dfsPostorder (inducedSubgraph g ns)).reverse := by
    simp only [topologically_order_subgraph]
    rw [hnone]
  refine ⟨hres, ?_⟩
  rw [hres]
  have hperm := dfsPostorder_perm (inducedSubgraph g ns) hsubWF hsubnd
  have hnodesperm : ((inducedSubgraph g ns).nodes).Perm ns := by
    apply List.Subperm.antisymm
    · apply List.Nodup.subperm hsubnd
      intro m hm
      simp only [inducedSubgraph, List.mem_filter, decide_eq_true_eq] at hm
      exact hm.2
    · apply List.Nodup.subperm hnsnd
      intro m hm
      simp only [inducedSubgraph, List.mem_filter, decide_eq_true_eq]
      exact ⟨hsub hm, hm⟩
  exact ((dfsPostorder _).reverse_perm.trans hperm).trans hnodesperm

/-- Witness for C3 on the two-node cycle `A → B → A`. -/
theorem claim_C3_witness :
    topologically_order_subgraph ⟨["A", "B"], [("A", "B"), ("B", "A")]⟩
        ["A", "B"] =
      (dfsPostorder (inducedSubgraph ⟨["A", "B"], [("A", "B"), ("B", "A")]⟩
        ["A", "B"])).reverse ∧
    (topologically_order_subgraph ⟨["A", "B"], [("A", "B"), ("B", "A")]⟩
      ["A", "B"]).Perm ["A", "B"] :=
  claim_C3_cycle_fallback ⟨["A", "B"], [("A", "B"), ("B", "A")]⟩ ["A", "B"]
    (by decide) (by decide) (fun _ hm => hm) (by decide) (by decide)

/-- C6: self-edges are ignored by the closure computation: if every edge
touching `A` is the self-edge `(A, A)` (a class whose recorded calls all
resolve to itself), then `collect_connected_classes(G, A)` returns exactly
`{A}`. -/
theorem claim_C6_self_calls (g : DiGraph) (A : String) (hWF : EdgesWF g)
    (hA : A ∈ g.nodes)
    (hself : ∀ e ∈ g.edges, (e.1 = A ∨ e.2 = A) → e = (A, A)) :
    ∃ res, collect_connected_classes g A = .ok res ∧
      ∀ n, n ∈ res ↔ n = A := by
  have hfwd : ∀ (l : List String) (n : String), isWalk g A n l → n = A := by
    intro l
    induction l with
    | nil => intro n h; exact h.symm
    | cons c l ih =>
      intro n h
      obtain ⟨he, hw⟩ := h
      have hc : c = A :=
        congrArg Prod.snd (hself (A, c) he (Or.inl rfl))
      exact ih n (hc ▸ hw)
  have hbwd : ∀ (l : List String) (n : String), isWalk g n A l → n = A := by
    intro l
    induction l with
    | nil => intro n h; exact h
    | cons c l ih =>
      intro n h
      obtain ⟨he, hw⟩ := h
      have hc : c = A := ih c hw
      subst hc
      exact congrArg Prod.fst (hself (n, c) he (Or.inr rfl))
  obtain ⟨heq, hiff⟩ := collect_spec g A hWF hA
  refine ⟨_, heq, fun n => ?_⟩
  rw [hiff n]
  constructor
  · rintro (⟨l, hl⟩ | ⟨l, hl⟩)
    · exact hfwd l n hl
    · exact hbwd l n hl
  · intro hn
    subst hn
    exact Or.inl (reaches_refl g n)

/-- Witness for C6 on a graph whose only edge is the self-loop at `A`. -/
theorem claim_C6_witness :
    ∃ res, collect_connected_classes ⟨["A", "B"], [("A", "A")]⟩ "A" =
        .ok res ∧ ∀ n, n ∈ res ↔ n = "A" :=
  claim_C6_self_calls ⟨["A", "B"], [("A", "A")]⟩ "A" (by decide) (by decide)
    (by decide)

/-! ## Fold and association-list lemmas for the graph builder -/

lemma foldl_preserve {α β : Type} (P : β → Prop) {f : β → α → β} :
    ∀ (l : List α) (b : β), P b → (∀ b a, a ∈ l → P b → P (f b a)) →
      P (l.foldl f b) := by
  intro l
  induction l with
  | nil => intro b hb _; exact hb
  | cons a l ih =>
    intro b hb hstep
    exact ih (f b a) (hstep b a (List.mem_cons_self a l) hb)
      (fun b' a' ha' hb' => hstep b' a' (List.mem_cons_of_mem a ha') hb')

lemma foldl_reach {α β : Type} (P : β → Prop) {f : β → α → β} :
    ∀ (l : List α) (b : β) (a : α), a ∈ l →
      (∀ b', P (f b' a)) → (∀ b' a', a' ∈ l → P b' → P (f b' a')) →
      P (l.foldl f b) := by
  intro l
  induction l with
  | nil => intro b a ha _ _; exact absurd ha (List.not_mem_nil a)
  | cons x l ih =>
    intro b a ha hstep hmono
    rcases List.mem_cons.mp ha with rfl | ha'
    · exact foldl_preserve P l (f b a) (hstep b)
        (fun b' a' ha' hb' => hmono b' a' (List.mem_cons_of_mem a ha') hb')
    · exact ih (f b x) a ha' hstep
        (fun b' a' ha'' hb' => hmono b' a' (List.mem_cons_of_mem x ha'') hb')

lemma edges_addNode (g : DiGraph) (n : String) :
    (addNode g n).edges = g.edges := by
  unfold addNode
  split <;> rfl

lemma mem_nodes_addNode_iff (g : DiGraph) (n m : String) :
    m ∈ (addNode g n).nodes ↔ m ∈ g.nodes ∨ m = n := by
  unfold addNode
  by_cases h : n ∈ g.nodes
  · rw [if_pos h]
    exact ⟨Or.inl, fun hm => hm.elim id (fun he => he ▸ h)⟩
  · rw [if_neg h]
    simp [List.mem_append]

lemma edges_addEdge (g : DiGraph) (u v : String) :
    (addEdge g u v).edges =
      if (u, v) ∈ g.edges then g.edges else g.edges ++ [(u, v)] := by
  unfold addEdge
  split
  · rw [edges_addNode, edges_addNode]
  · rfl

lemma mem_edges_addEdge_iff (g : DiGraph) (u v : String)
    (e : String × String) :
    e ∈ (addEdge g u v).edges ↔ e ∈ g.edges ∨ e = (u, v) := by
  rw [edges_addEdge]
  by_cases h : (u, v) ∈ g.edges
  · rw [if_pos h]
    exact ⟨Or.inl, fun hm => hm.elim id (fun he => he ▸ h)⟩
  · rw [if_neg h]
    simp [List.mem_append]

lemma mem_edges_addEdge_of_mem (g : DiGraph) (u v : String)
    {e : String × String} (h : e ∈ g.edges) : e ∈ (addEdge g u v).edges :=
  (mem_edges_addEdge_iff g u v e).mpr (Or.inl h)

lemma mem_edges_addEdge_self (g : DiGraph) (u v : String) :
    (u, v) ∈ (addEdge g u v).edges :=
  (mem_edges_addEdge_iff g u v (u, v)).mpr (Or.inr rfl)

lemma nodes_addEdge (g : DiGraph) (u v : String) :
    (addEdge g u v).nodes = (addNode (addNode g u) v).nodes := by
  unfold addEdge
  split <;> rfl

lemma mem_nodes_addEdge_iff (g : DiGraph) (u v : String) (m : String) :
    m ∈ (addEdge g u v).nodes ↔ m ∈ g.nodes ∨ m = u ∨ m = v := by
  rw [nodes_addEdge]
  rw [mem_nodes_addNode_iff, mem_nodes_addNode_iff]
  tauto

lemma nodes_addEdge_of_mem (g : DiGraph) {u v : String} (hu : u ∈ g.nodes)
    (hv : v ∈ g.nodes) : (addEdge g u v).nodes = g.nodes := by
  rw [nodes_addEdge]
  unfold addNode
  rw [if_pos hu]
  rw [if_pos hv]

lemma lookupAssoc_insertAssoc {α : Type} :
    ∀ (m : List (String × α)) (k k' : String) (v : α),
      lookupAssoc (insertAssoc m k v) k' =
        if k = k' then some v else lookupAssoc m k' := by
  intro m
  induction m with
  | nil =>
    intro k k' v
    simp [insertAssoc, lookupAssoc]
  | cons p m ih =>
    intro k k' v
    by_cases hpk : p.1 = k
    · by_cases hkk : k = k'
      · simp [insertAssoc, lookupAssoc, hpk, hkk]
      · have hpk' : p.1 ≠ k' := fun h => hkk (hpk.symm.trans h)
        simp [insertAssoc, lookupAssoc, hpk, hkk, hpk']
    · by_cases hpk' : p.1 = k'
      · have hkk : k ≠ k' := fun h => hpk (h ▸ hpk')
        simp [insertAssoc, lookupAssoc, hpk, hpk', hkk, Ne.symm hkk]
      · simp [insertAssoc, lookupAssoc, hpk, hpk', ih k k' v]

lemma mem_keys_insertAssoc {α : Type} :
    ∀ (m : List (String × α)) (k : String) (v : α) (n : String),
      n ∈ (insertAssoc m k v).map Prod.fst ↔
        n ∈ m.map Prod.fst ∨ n = k := by
  intro m
  induction m with
  | nil =>
    intro k v n
    simp [insertAssoc]
  | cons p m ih =>
    intro k v n
    by_cases hpk : p.1 = k
    · simp only [insertAssoc, beq_iff_eq, hpk, if_true, List.map_cons,
        List.mem_cons]
      tauto
    · simp only [insertAssoc, beq_iff_eq, hpk, if_false, List.map_cons,
        List.mem_cons, ih k v n]
      tauto

lemma lookupAssoc_isSome_iff_mem_keys {α : Type} :
    ∀ (m : List (String × α)) (k : String),
      (lookupAssoc m k).isSome ↔ k ∈ m.map Prod.fst := by
  intro m
  induction m with
  | nil => intro k; simp [lookupAssoc]
  | cons p m ih =>
    intro k
    by_cases hpk : p.1 = k
    · simp [lookupAssoc, hpk]
    · simp only [lookupAssoc, beq_iff_eq, hpk, if_false, List.map_cons,
        List.mem_cons, ih k]
      constructor
      · exact Or.inr
      · rintro (h | h)
        · exact absurd h.symm hpk
        · exact h

lemma GInv_addEdge {keys : List String} {g : DiGraph} {u v : String}
    (h : GInv keys g) (hu : u ∈ keys) (hv : v ∈ keys) :
    GInv keys (addEdge g u v) := by
  have hun : u ∈ g.nodes := (h.1 u).mpr hu
  have hvn : v ∈ g.nodes := (h.1 v).mpr hv
  have hnodes : (addEdge g u v).nodes = g.nodes :=
    nodes_addEdge_of_mem g hun hvn
  constructor
  · intro n
    rw [hnodes]
    exact h.1 n
  · intro e he
    rw [hnodes]
    rcases (mem_edges_addEdge_iff g u v e).mp he with he' | rfl
    · exact h.2 e he'
    · exact ⟨hun, hvn⟩

lemma RInv_registerClass {st : RegState} (path : String)
    (pkg : Option String) (cn : String) (cm : ClassMeta) (h : RInv st) :
    RInv (registerClass st path pkg cn cm) := by
  constructor
  · intro n
    show n ∈ (addNode st.g cn).nodes ↔
      n ∈ (insertAssoc st.reg cn ⟨path, pkg, cm⟩).map Prod.fst
    rw [mem_nodes_addNode_iff, mem_keys_insertAssoc, h.1 n]
  · show (addNode st.g cn).edges = []
    rw [edges_addNode]
    exact h.2

lemma RInv_registerAll (ms : List FileMeta) : RInv (registerAll ms) := by
  unfold registerAll
  apply foldl_preserve _
  · exact ⟨fun n => by simp [emptyGraph], rfl⟩
  · intro st fm _ hst
    apply foldl_preserve _
    · exact hst
    · intro st' p _ hst'
      exact RInv_registerClass fm.path fm.package p.1 p.2 hst'

/-- Every class of every input file ends up among the registry keys. -/
lemma mem_keys_registerAll {ms : List FileMeta} {fm : FileMeta}
    {cn : String} {cm : ClassMeta} (hfm : fm ∈ ms)
    (hcn : (cn, cm) ∈ fm.classes) :
    cn ∈ (registerAll ms).reg.map Prod.fst := by
  unfold registerAll
  have hmono : ∀ (st : RegState) (fm' : FileMeta),
      cn ∈ st.reg.map Prod.fst →
      cn ∈ (fm'.classes.foldl
        (fun st p => registerClass st fm'.path fm'.package p.1 p.2)
          st).reg.map Prod.fst := by
    intro st fm' hst
    apply foldl_preserve (fun st : RegState => cn ∈ st.reg.map Prod.fst)
    · exact hst
    · intro st' p _ hst'
      show cn ∈ (insertAssoc st'.reg p.1 _).map Prod.fst
      rw [mem_keys_insertAssoc]
      exact Or.inl hst'
  apply foldl_reach (fun st : RegState => cn ∈ st.reg.map Prod.fst)
    ms _ fm hfm
  · intro st
    apply foldl_reach (fun st : RegState => cn ∈ st.reg.map Prod.fst)
      fm.classes st (cn, cm) hcn
    · intro st'
      show cn ∈ (insertAssoc st'.reg cn _).map Prod.fst
      rw [mem_keys_insertAssoc]
      exact Or.inr rfl
    · intro st' p _ hst'
      show cn ∈ (insertAssoc st'.reg p.1 _).map Prod.fst
      rw [mem_keys_insertAssoc]
      exact Or.inl hst'
  · intro st fm' _ hst
    exact hmono st fm' hst

lemma GInv_addInheritanceEdges {reg : List (String × ClassInfo)}
    {g : DiGraph} (h : GInv (reg.map Prod.fst) g) :
    GInv (reg.map Prod.fst) (addInheritanceEdges reg g) := by
  unfold addInheritanceEdges
  apply foldl_preserve _
  · exact h
  · intro g' p hp hg
    apply foldl_preserve _
    · exact hg
    · intro g'' sup _ hg'
      by_cases hs : (lookupAssoc reg sup).isSome
      · rw [if_pos hs]
        exact GInv_addEdge hg'
          (List.mem_map.mpr ⟨p, hp, rfl⟩)
          ((lookupAssoc_isSome_iff_mem_keys reg sup).mp hs)
      · rw [if_neg hs]
        exact hg'

lemma GInv_tokenEdgeStep {keys : List String} {g : DiGraph}
    (imports : List String) (filePkg : String)
    (simpleMap : List (String × List Cand))
    (mv cv : List (String × String)) {caller : String} (tok : String)
    (hc : caller ∈ keys) (h : GInv keys g) :
    GInv keys (tokenEdgeStep imports filePkg simpleMap mv cv keys caller
      g tok) := by
  unfold tokenEdgeStep
  by_cases hskip : tok = "" ∨ tok = "this" ∨ tok = "super"
  · rw [if_pos hskip]
    exact h
  · rw [if_neg hskip]
    rcases hres : resolveToken imports filePkg simpleMap mv cv tok with _ | r
    · exact h
    · show GInv keys (if r ≠ "" ∧ r ∈ keys then addEdge g caller r else g)
      by_cases hr : r ≠ "" ∧ r ∈ keys
      · rw [if_pos hr]
        exact GInv_addEdge h hc hr.2
      · rw [if_neg hr]
        exact h

lemma GInv_fileTokenStep {keys : List String} {g : DiGraph}
    {caller : String} (tok : String) (hc : caller ∈ keys)
    (h : GInv keys g) : GInv keys (fileTokenStep keys caller g tok) := by
  unfold fileTokenStep
  by_cases hk : lastSegment tok ∈ keys
  · rw [if_pos hk]
    exact GInv_addEdge h hc hk
  · rw [if_neg hk]
    exact h

lemma GInv_classCallStep {keys : List String} {g : DiGraph}
    (imports : List String) (filePkg : String)
    (simpleMap : List (String × List Cand)) (mcalls : List String)
    (cp : String × ClassMeta) (hc : cp.1 ∈ keys) (h : GInv keys g) :
    GInv keys (classCallStep imports filePkg simpleMap keys mcalls g cp) := by
  unfold classCallStep
  apply foldl_preserve _
  · apply foldl_preserve _
    · exact h
    · intro g' mp _ hg
      unfold methodStep
      apply foldl_preserve _
      · exact hg
      · intro g'' tok _ hg'
        exact GInv_tokenEdgeStep imports filePkg simpleMap mp.2.vars
          cp.2.class_vars tok hc hg'
  · intro g' ct _ hg
    unfold fileCallStep
    apply foldl_preserve _
    · exact hg
    · intro g'' tok _ hg'
      exact GInv_fileTokenStep tok hc hg'

lemma GInv_addCallEdges {keys : List String} {g : DiGraph}
    (ms : List FileMeta) (simpleMap : List (String × List Cand))
    (hcallers : ∀ fm ∈ ms, ∀ cp ∈ fm.classes, cp.1 ∈ keys)
    (h : GInv keys g) : GInv keys (addCallEdges ms simpleMap keys g) := by
  unfold addCallEdges
  apply foldl_preserve _
  · exact h
  · intro g' fm hfm hg
    unfold fileCallEdges
    apply foldl_preserve _
    · exact hg
    · intro g'' cp hcp hg'
      exact GInv_classCallStep fm.imports (fm.package.getD "") simpleMap
        fm.method_calls cp (hcallers fm hfm cp hcp) hg'

/-- C4: every edge added by `build_dependency_graph` has both endpoints
among the registered class nodes, and the graph's nodes are exactly the
registered class names: an unresolved call token or supertype produces no
edge and creates no new node (and the builder is a total function, so no
error is raised). -/
theorem claim_C4_edges_registered (ms : List FileMeta) :
    (∀ n, n ∈ (build_dependency_graph ms).G.nodes ↔
        n ∈ (build_dependency_graph ms).class_to_file.map Prod.fst) ∧
    (∀ e ∈ (build_dependency_graph ms).G.edges,
        e.1 ∈ (build_dependency_graph ms).G.nodes ∧
        e.2 ∈ (build_dependency_graph ms).G.nodes) := by
  have hreg := RInv_registerAll ms
  have h0 : GInv ((registerAll ms).reg.map Prod.fst) (registerAll ms).g := by
    refine ⟨hreg.1, ?_⟩
    intro e he
    rw [hreg.2] at he
    exact absurd he (List.not_mem_nil e)
  have h1 := GInv_addInheritanceEdges h0
  have h2 := GInv_addCallEdges ms (buildSimpleMap (registerAll ms).reg)
    (fun fm hfm cp hcp => mem_keys_registerAll hfm hcp) h1
  exact ⟨h2.1, h2.2⟩

/-- Witness for C4 on a metadata list with one resolvable call. -/
theorem claim_C4_witness :
    "Foo" ∈ (build_dependency_graph
      [⟨"Foo.java", none, [],
        [("Foo", ⟨[], [], [("m", ⟨"x.thing()", [("x", "Bar")]⟩)], []⟩)], []⟩,
       ⟨"Bar.java", none, [], [("Bar", ⟨[], [], [], []⟩)], []⟩]).G.nodes ∧
    "Bar" ∈ (build_dependency_graph
      [⟨"Foo.java", none, [],
        [("Foo", ⟨[], [], [("m", ⟨"x.thing()", [("x", "Bar")]⟩)], []⟩)], []⟩,
       ⟨"Bar.java", none, [], [("Bar", ⟨[], [], [], []⟩)], []⟩]).G.nodes :=
  (claim_C4_edges_registered
    [⟨"Foo.java", none, [],
      [("Foo", ⟨[], [], [("m", ⟨"x.thing()", [("x", "Bar")]⟩)], []⟩)], []⟩,
     ⟨"Bar.java", none, [], [("Bar", ⟨[], [], [], []⟩)], []⟩]).2
    ("Foo", "Bar") (by decide)

/-! ## Resolution-chain lemmas and C5 -/

lemma importMatch_none_or_self (simpleMap : List (String × List Cand))
    (simple imp : String) :
    importMatch simpleMap simple imp = none ∨
    importMatch simpleMap simple imp = some simple := by
  rcases hp : parseImport imp with _ | fq
  · simp only [importMatch, hp]
    exact Or.inl trivial
  · simp only [importMatch, hp]
    split_ifs with h1 h2
    · exact Or.inr rfl
    · rcases hl : lookupAssoc simpleMap simple with _ | cands
      · exact Or.inl rfl
      · simp only [hl]
        split_ifs with h3
        · exact Or.inr rfl
        · exact Or.inl rfl
    · exact Or.inl rfl

lemma resolveWithImports_none_or_self (simpleMap : List (String × List Cand))
    (simple : String) :
    ∀ imports, resolveWithImports simpleMap simple imports = none ∨
      resolveWithImports simpleMap simple imports = some simple := by
  intro imports
  induction imports with
  | nil => exact Or.inl rfl
  | cons imp rest ih =>
    rcases h : importMatch simpleMap simple imp with _ | r
    · simp only [resolveWithImports, h]
      exact ih
    · have hr : r = simple := by
        rcases importMatch_none_or_self simpleMap simple imp with h' | h'
        · rw [h] at h'
          exact absurd h' (by simp)
        · rw [h] at h'
          exact Option.some.inj h'
      simp only [resolveWithImports, h, hr]
      exact Or.inr trivial

/-- When the scanned token is a recorded local variable of the enclosing
method and its declared type's simple name is registered (necessarily as
the unique candidate, the registry being keyed by simple name), the chain
resolves to that declared type — regardless of imports, package, or any
other class in the project. -/
lemma resolveToken_method_var (imports : List String) (filePkg : String)
    (simpleMap : List (String × List Cand))
    (methodVars classVars : List (String × String)) (tok dt : String)
    (cands : List Cand) (hmv : lookupAssoc methodVars tok = some dt)
    (hsm : lookupAssoc simpleMap (lastSegment dt) = some cands)
    (hlen : cands.length = 1) :
    resolveToken imports filePkg simpleMap methodVars classVars tok =
      some (lastSegment dt) := by
  rcases h1 : resolveWithImports simpleMap (lastSegment dt) imports
    with _ | r
  · simp only [resolveToken, hmv, h1, hsm]
    by_cases hp : filePkg ≠ ""
    · rw [if_pos hp]
      by_cases hany : (cands.any fun c => c.package == filePkg) = true
      · rw [if_pos hany]
      · rw [if_neg hany]
        rw [if_pos (show (cands.length == 1) = true by simp [hlen])]
    · rw [if_neg hp]
      rw [if_pos (show (cands.length == 1) = true by simp [hlen])]
  · have hr : r = lastSegment dt := by
      rcases resolveWithImports_none_or_self simpleMap (lastSegment dt)
        imports with h' | h'
      · rw [h1] at h'
        exact absurd h' (by simp)
      · rw [h1] at h'
        exact Option.some.inj h'
    simp only [resolveToken, hmv, h1, hr]

/-- C5: local-variable typing takes precedence.  First conjunct: for any
method whose recorded locals map the token to declared type `dt`, the chain
resolves the token to `dt`'s simple name whenever that name is registered
(with its necessarily unique candidate), so no other class can be chosen.
Second conjunct: in the concrete shadowing scenario (class `Foo` with local
`x : Bar` and call `x.thing()`, classes `Bar` and `Baz` both registered),
the builder adds the edge `Foo → Bar` and never `Foo → Baz`. -/
theorem claim_C5_local_var_precedence :
    (∀ (imports : List String) (filePkg : String)
       (simpleMap : List (String × List Cand))
       (methodVars classVars : List (String × String)) (tok dt : String)
       (cands : List Cand),
       lookupAssoc methodVars tok = some dt →
       lookupAssoc simpleMap (lastSegment dt) = some cands →
       cands.length = 1 →
       resolveToken imports filePkg simpleMap methodVars classVars tok =
         some (lastSegment dt)) ∧
    (("Foo", "Bar") ∈ (build_dependency_graph
       [⟨"Foo.java", none, [],
         [("Foo", ⟨[], [], [("m", ⟨"x.thing()", [("x", "Bar")]⟩)], []⟩)], []⟩,
        ⟨"Bar.java", none, [], [("Bar", ⟨[], [], [], []⟩)], []⟩,
        ⟨"Baz.java", none, [], [("Baz", ⟨[], [], [], []⟩)], []⟩]).G.edges ∧
     ("Foo", "Baz") ∉ (build_dependency_graph
       [⟨"Foo.java", none, [],
         [("Foo", ⟨[], [], [("m", ⟨"x.thing()", [("x", "Bar")]⟩)], []⟩)], []⟩,
        ⟨"Bar.java", none, [], [("Bar", ⟨[], [], [], []⟩)], []⟩,
        ⟨"Baz.java", none, [], [("Baz", ⟨[], [], [], []⟩)], []⟩]).G.edges) := by
  constructor
  · intro imports filePkg simpleMap methodVars classVars tok dt cands hmv
      hsm hlen
    exact resolveToken_method_var imports filePkg simpleMap methodVars
      classVars tok dt cands hmv hsm hlen
  · constructor
    · decide
    · decide

/-- Witness for C5's general conjunct at a concrete resolution. -/
theorem claim_C5_witness :
    resolveToken [] "" [("Bar", [⟨"", "Bar.java"⟩])] [("x", "Bar")] [] "x" =
      some (lastSegment "Bar") :=
  claim_C5_local_var_precedence.1 [] "" [("Bar", [⟨"", "Bar.java"⟩])]
    [("x", "Bar")] [] "x" "Bar" [⟨"", "Bar.java"⟩] (by decide) (by decide)
    (by decide)

/-! ## Edge-membership monotonicity through the call-edge pass -/

lemma mem_edges_tokenEdgeStep {e : String × String} {g : DiGraph}
    (imports : List String) (filePkg : String)
    (simpleMap : List (String × List Cand))
    (mv cv : List (String × String)) (known : List String) (caller : String)
    (tok : String) (h : e ∈ g.edges) :
    e ∈ (tokenEdgeStep imports filePkg simpleMap mv cv known caller
      g tok).edges := by
  unfold tokenEdgeStep
  by_cases hskip : tok = "" ∨ tok = "this" ∨ tok = "super"
  · rw [if_pos hskip]
    exact h
  · rw [if_neg hskip]
    rcases hres : resolveToken imports filePkg simpleMap mv cv tok with _ | r
    · exact h
    · show e ∈ (if r ≠ "" ∧ r ∈ known then addEdge g caller r else g).edges
      by_cases hr : r ≠ "" ∧ r ∈ known
      · rw [if_pos hr]
        exact mem_edges_addEdge_of_mem g caller r h
      · rw [if_neg hr]
        exact h

lemma mem_edges_fileTokenStep {e : String × String} {g : DiGraph}
    (known : List String) (caller tok : String) (h : e ∈ g.edges) :
    e ∈ (fileTokenStep known caller g tok).edges := by
  unfold fileTokenStep
  by_cases hk : lastSegment tok ∈ known
  · rw [if_pos hk]
    exact mem_edges_addEdge_of_mem g caller (lastSegment tok) h
  · rw [if_neg hk]
    exact h

lemma mem_edges_classCallStep {e : String × String} {g : DiGraph}
    (imports : List String) (filePkg : String)
    (simpleMap : List (String × List Cand)) (known : List String)
    (mcalls : List String) (cp : String × ClassMeta) (h : e ∈ g.edges) :
    e ∈ (classCallStep imports filePkg simpleMap known mcalls g cp).edges := by
  unfold classCallStep
  apply foldl_preserve (fun g : DiGraph => e ∈ g.edges)
  · apply foldl_preserve (fun g : DiGraph => e ∈ g.edges)
    · exact h
    · intro g' mp _ hg
      unfold methodStep
      apply foldl_preserve (fun g : DiGraph => e ∈ g.edges)
      · exact hg
      · intro g'' tok _ hg'
        exact mem_edges_tokenEdgeStep imports filePkg simpleMap mp.2.vars
          cp.2.class_vars known cp.1 tok hg'
  · intro g' ct _ hg
    unfold fileCallStep
    apply foldl_preserve (fun g : DiGraph => e ∈ g.edges)
    · exact hg
    · intro g'' tok _ hg'
      exact mem_edges_fileTokenStep known cp.1 tok hg'

lemma mem_edges_fileCallEdges {e : String × String} {g : DiGraph}
    (simpleMap : List (String × List Cand)) (known : List String)
    (fm : FileMeta) (h : e ∈ g.edges) :
    e ∈ (fileCallEdges simpleMap known g fm).edges := by
  unfold fileCallEdges
  apply foldl_preserve (fun g : DiGraph => e ∈ g.edges)
  · exact h
  · intro g' cp _ hg
    exact mem_edges_classCallStep fm.imports (fm.package.getD "") simpleMap
      known fm.method_calls cp hg

/-- A file-level call token whose trailing segment is registered produces
an edge from every class of its file, unconditionally. -/
lemma mem_addCallEdges_fileCall {ms : List FileMeta}
    {simpleMap : List (String × List Cand)} {known : List String}
    {g0 : DiGraph} {fm : FileMeta} {cp : String × ClassMeta} {ct tok : String}
    (hfm : fm ∈ ms) (hcp : cp ∈ fm.classes) (hct : ct ∈ fm.method_calls)
    (htok : tok ∈ findTokens ct) (hk : lastSegment tok ∈ known) :
    (cp.1, lastSegment tok) ∈ (addCallEdges ms simpleMap known g0).edges := by
  unfold addCallEdges
  apply foldl_reach (fun g : DiGraph => (cp.1, lastSegment tok) ∈ g.edges)
    ms g0 fm hfm
  · intro g'
    unfold fileCallEdges
    apply foldl_reach
      (fun g : DiGraph => (cp.1, lastSegment tok) ∈ g.edges)
      fm.classes g' cp hcp
    · intro g''
      unfold classCallStep
      apply foldl_reach
        (fun g : DiGraph => (cp.1, lastSegment tok) ∈ g.edges)
        fm.method_calls _ ct hct
      · intro g3
        unfold fileCallStep
        apply foldl_reach
          (fun g : DiGraph => (cp.1, lastSegment tok) ∈ g.edges)
          (findTokens ct) g3 tok htok
        · intro g4
          unfold fileTokenStep
          rw [if_pos hk]
          exact mem_edges_addEdge_self g4 cp.1 (lastSegment tok)
        · intro g4 tok' _ hg
          exact mem_edges_fileTokenStep known cp.1 tok' hg
      · intro g3 ct' _ hg
        unfold fileCallStep
        apply foldl_preserve
          (fun g : DiGraph => (cp.1, lastSegment tok) ∈ g.edges)
        · exact hg
        · intro g4 tok' _ hg'
          exact mem_edges_fileTokenStep known cp.1 tok' hg'
    · intro g'' cp' _ hg
      exact mem_edges_classCallStep fm.imports (fm.package.getD "") simpleMap
        known fm.method_calls cp' hg
  · intro g' fm' _ hg
    exact mem_edges_fileCallEdges simpleMap known fm' hg

/-- C7 (amended): file-level call tokens contribute edges unconditionally.
For every class of a file and every token scanned from the file-level call
list, an edge from that class to the token's trailing segment is added
whenever that segment is a registered class name — regardless of whether
method-level attribution was available for the file. -/
theorem claim_C7_amended_file_calls_unconditional (ms : List FileMeta) :
    ∀ fm ∈ ms, ∀ cp ∈ fm.classes, ∀ ct ∈ fm.method_calls,
      ∀ tok ∈ findTokens ct,
      lastSegment tok ∈
        (build_dependency_graph ms).class_to_file.map Prod.fst →
      (cp.1, lastSegment tok) ∈ (build_dependency_graph ms).G.edges := by
  intro fm hfm cp hcp ct hct tok htok hk
  exact mem_addCallEdges_fileCall hfm hcp hct htok hk

/-- Counterexample to C7 as stated: class `A` has method-level attribution
(one method, whose only scanned token is `this`, which the chain skips), so
per the claim the file-level list must contribute nothing; yet the builder
adds the edge `A → B` from the file-level call text `B.go()`. -/
theorem claim_C7_counterexample :
    findTokens "this.x" = ["this"] ∧
    ("A", "B") ∈ (build_dependency_graph
      [⟨"A.java", none, [],
        [("A", ⟨[], [], [("m", ⟨"this.x", []⟩)], []⟩)], ["B.go()"]⟩,
       ⟨"B.java", none, [], [("B", ⟨[], [], [], []⟩)], []⟩]).G.edges := by
  constructor
  · decide
  · decide

/-- Witness for the amended C7 on the counterexample metadata. -/
theorem claim_C7_witness :
    ("A", lastSegment "B") ∈ (build_dependency_graph
      [⟨"A.java", none, [],
        [("A", ⟨[], [], [("m", ⟨"this.x", []⟩)], []⟩)], ["B.go()"]⟩,
       ⟨"B.java", none, [], [("B", ⟨[], [], [], []⟩)], []⟩]).G.edges :=
  claim_C7_amended_file_calls_unconditional
    [⟨"A.java", none, [],
      [("A", ⟨[], [], [("m", ⟨"this.x", []⟩)], []⟩)], ["B.go()"]⟩,
     ⟨"B.java", none, [], [("B", ⟨[], [], [], []⟩)], []⟩]
    ⟨"A.java", none, [],
      [("A", ⟨[], [], [("m", ⟨"this.x", []⟩)], []⟩)], ["B.go()"]⟩
    (by decide) ("A", ⟨[], [], [("m", ⟨"this.x", []⟩)], []⟩) (by decide)
    "B.go()" (by decide) "B" (by decide) (by decide)

lemma classes_fold_reg (cps : List (String × ClassMeta)) (path : String)
    (pkg : Option String) :
    ∀ st : RegState,
      ((cps.foldl (fun st p => registerClass st path pkg p.1 p.2) st).reg) =
        cps.foldl (fun m p => insertAssoc m p.1 ⟨path, pkg, p.2⟩) st.reg := by
  induction cps with
  | nil => intro st; rfl
  | cons c rest ih =>
    intro st
    rw [List.foldl_cons, List.foldl_cons, ih]
    rfl

lemma registerAll_reg_aux (ms : List FileMeta) :
    ∀ st : RegState,
      ((ms.foldl (fun st fm =>
          fm.classes.foldl
            (fun st p => registerClass st fm.path fm.package p.1 p.2) st)
        st).reg) =
      (regPairs ms).foldl (fun m p => insertAssoc m p.1 p.2) st.reg := by
  induction ms with
  | nil => intro st; rfl
  | cons fm rest ih =>
    intro st
    rw [List.foldl_cons, ih, regPairs, List.foldl_append,
      classes_fold_reg fm.classes fm.path fm.package st, List.foldl_map]

/-- The registry is the fold of Python-dict updates over the flat
registration pairs. -/
lemma registerAll_reg (ms : List FileMeta) :
    (registerAll ms).reg =
      (regPairs ms).foldl (fun m p => insertAssoc m p.1 p.2) [] :=
  registerAll_reg_aux ms ⟨[], [], emptyGraph⟩

/-- Looking up a key after folding dict updates returns the value of the
last processed pair with that key (last writer wins). -/
lemma lookup_foldl_insertAssoc {α : Type} :
    ∀ (ps : List (String × α)) (m : List (String × α)) (k : String),
      lookupAssoc (ps.foldl (fun m p => insertAssoc m p.1 p.2) m) k =
        match (ps.filter (fun p => p.1 == k)).getLast? with
        | some q => some q.2
        | none => lookupAssoc m k := by
  intro ps
  induction ps with
  | nil => intro m k; rfl
  | cons p ps ih =>
    intro m k
    rw [List.foldl_cons, ih]
    by_cases hp : p.1 = k
    · rw [List.filter_cons, if_pos (by simpa using hp)]
      cases hfil : ps.filter (fun p => p.1 == k) with
      | nil => simp [lookupAssoc_insertAssoc, hp]
      | cons q t =>
        rw [List.getLast?_cons_cons,
          List.getLast?_eq_getLast (q :: t) (List.cons_ne_nil q t)]
    · rw [List.filter_cons, if_neg (by simpa using hp)]
      cases hfil : ps.filter (fun p => p.1 == k) with
      | nil => simp [lookupAssoc_insertAssoc, hp]
      | cons q t => rfl

lemma keys_nodup_insertAssoc {α : Type} :
    ∀ (m : List (String × α)) (k : String) (v : α),
      (m.map Prod.fst).Nodup → ((insertAssoc m k v).map Prod.fst).Nodup := by
  intro m
  induction m with
  | nil =>
    intro k v _
    simp [insertAssoc]
  | cons p m ih =>
    intro k v hnd
    rw [List.map_cons, List.nodup_cons] at hnd
    by_cases hpk : p.1 = k
    · rw [insertAssoc, if_pos (by simpa using hpk)]
      rw [List.map_cons, List.nodup_cons]
      exact ⟨hpk ▸ hnd.1, hnd.2⟩
    · rw [insertAssoc, if_neg (by simpa using hpk)]
      rw [List.map_cons, List.nodup_cons]
      constructor
      · intro hmem
        rcases (mem_keys_insertAssoc m k v p.1).mp hmem with h | h
        · exact hnd.1 h
        · exact hpk h
      · exact ih k v hnd.2

/-- The registry's keys are pairwise distinct. -/
lemma registerAll_keys_nodup (ms : List FileMeta) :
    ((registerAll ms).reg.map Prod.fst).Nodup := by
  rw [registerAll_reg]
  apply foldl_preserve
    (fun m : List (String × ClassInfo) => (m.map Prod.fst).Nodup)
  · exact List.nodup_nil
  · intro m p _ hm
    exact keys_nodup_insertAssoc m p.1 p.2 hm

lemma lookupAssoc_eq_some_iff_mem {α : Type} :
    ∀ (m : List (String × α)), (m.map Prod.fst).Nodup →
      ∀ (k : String) (v : α), lookupAssoc m k = some v ↔ (k, v) ∈ m := by
  intro m
  induction m with
  | nil =>
    intro _ k v
    simp [lookupAssoc]
  | cons p m ih =>
    intro hnd k v
    rw [List.map_cons, List.nodup_cons] at hnd
    by_cases hpk : p.1 = k
    · rw [lookupAssoc, if_pos (by simpa using hpk)]
      constructor
      · intro h
        have hv : v = p.2 := (Option.some.inj h).symm
        have hpe : p = (k, v) := by
          rw [hv, ← hpk]
        exact hpe ▸ List.mem_cons_self p m
      · intro h
        rcases List.mem_cons.mp h with he | hm
        · rw [← he]
        · exact absurd (hpk ▸ List.mem_map.mpr ⟨(k, v), hm, rfl⟩) hnd.1
    · rw [lookupAssoc, if_neg (by simpa using hpk)]
      rw [ih hnd.2 k v]
      constructor
      · exact fun h => List.mem_cons_of_mem p h
      · intro h
        rcases List.mem_cons.mp h with he | hm
        · exact absurd (congrArg Prod.fst he.symm) hpk
        · exact hm

/-! ## Warnings and edge-origin lemmas (for C8) -/

lemma warnings_registerClass_mono {st : RegState} {w : String × String × String}
    (path : String) (pkg : Option String) (cn : String) (cm : ClassMeta)
    (h : w ∈ st.warnings) : w ∈ (registerClass st path pkg cn cm).warnings := by
  rcases hl : lookupAssoc st.reg cn with _ | prev
  · simp only [registerClass, hl]
    exact h
  · simp only [registerClass, hl]
    exact List.mem_append_left _ h

lemma warnings_classFold_mono {w : String × String × String}
    (cps : List (String × ClassMeta)) (path : String) (pkg : Option String)
    (st : RegState) (h : w ∈ st.warnings) :
    w ∈ ((cps.foldl (fun st p => registerClass st path pkg p.1 p.2)
      st).warnings) := by
  apply foldl_preserve (fun st : RegState => w ∈ st.warnings)
  · exact h
  · intro st' p _ hst
    exact warnings_registerClass_mono path pkg p.1 p.2 hst

lemma isSome_registerClass {st : RegState} {k : String} (path : String)
    (pkg : Option String) (cn : String) (cm : ClassMeta)
    (h : (lookupAssoc st.reg k).isSome) :
    (lookupAssoc (registerClass st path pkg cn cm).reg k).isSome := by
  show (lookupAssoc (insertAssoc st.reg cn ⟨path, pkg, cm⟩) k).isSome
  rw [lookupAssoc_insertAssoc]
  by_cases hc : cn = k
  · rw [if_pos hc]
    rfl
  · rw [if_neg hc]
    exact h

lemma isSome_classFold {k : String} (cps : List (String × ClassMeta))
    (path : String) (pkg : Option String) (st : RegState)
    (h : (lookupAssoc st.reg k).isSome) :
    (lookupAssoc ((cps.foldl (fun st p => registerClass st path pkg p.1 p.2)
      st).reg) k).isSome := by
  apply foldl_preserve (fun st : RegState => (lookupAssoc st.reg k).isSome)
  · exact h
  · intro st' p _ hst
    exact isSome_registerClass path pkg p.1 p.2 hst

/-- If a class name is already registered, any later file defining it again
appends a duplicate warning for that name. -/
lemma warnsClass (cps : List (String × ClassMeta)) (path : String)
    (pkg : Option String) (cn : String) :
    ∀ st : RegState, (lookupAssoc st.reg cn).isSome →
      (∃ cm, (cn, cm) ∈ cps) →
      ∃ w ∈ ((cps.foldl (fun st p => registerClass st path pkg p.1 p.2)
        st).warnings), w.1 = cn := by
  induction cps with
  | nil =>
    intro st _ hex
    obtain ⟨cm, hcm⟩ := hex
    exact absurd hcm (List.not_mem_nil (cn, cm))
  | cons c rest ih =>
    intro st hsome hex
    obtain ⟨cm, hcm⟩ := hex
    rcases List.mem_cons.mp hcm with he | hm
    · obtain ⟨prev, hprev⟩ := Option.isSome_iff_exists.mp hsome
    -- the duplicate registration emits the warning, which later steps keep
      have he1 : c.1 = cn := congrArg Prod.fst he.symm
      have hw : (cn, path, prev.file) ∈
          (registerClass st path pkg c.1 c.2).warnings := by
        simp only [registerClass, he1, hprev]
        exact List.mem_append_right _ (List.mem_cons_self _ _)
      rw [List.foldl_cons]
      exact ⟨(cn, path, prev.file),
        warnings_classFold_mono rest path pkg _ hw, rfl⟩
    · rw [List.foldl_cons]
      exact ih (registerClass st path pkg c.1 c.2)
        (isSome_registerClass path pkg c.1 c.2 hsome) ⟨cm, hm⟩

/-- File-level version of `warnsClass`. -/
lemma warnsFiles (msr : List FileMeta) (cn : String) :
    ∀ st : RegState, (lookupAssoc st.reg cn).isSome →
      (∃ fm ∈ msr, ∃ cm, (cn, cm) ∈ fm.classes) →
      ∃ w ∈ ((msr.foldl (fun st fm =>
          fm.classes.foldl
            (fun st p => registerClass st fm.path fm.package p.1 p.2) st)
        st).warnings), w.1 = cn := by
  induction msr with
  | nil =>
    intro st _ hex
    obtain ⟨fm, hfm, _⟩ := hex
    exact absurd hfm (List.not_mem_nil fm)
  | cons fm rest ih =>
    intro st hsome hex
    obtain ⟨fm', hfm', cm, hcm⟩ := hex
    rw [List.foldl_cons]
    rcases List.mem_cons.mp hfm' with rfl | hm
    · obtain ⟨w, hw, hwc⟩ :=
        warnsClass fm'.classes fm'.path fm'.package cn st hsome ⟨cm, hcm⟩
      refine ⟨w, ?_, hwc⟩
      apply foldl_preserve (fun st : RegState => w ∈ st.warnings)
      · exact hw
      · intro st' fm'' _ hst
        exact warnings_classFold_mono fm''.classes fm''.path fm''.package
          st' hst
    · exact ih _ (isSome_classFold fm.classes fm.path fm.package st hsome)
        ⟨fm', hm, cm, hcm⟩

/-- A resolved method-body token of any class of any file contributes its
edge to the final call-edge pass. -/
lemma mem_addCallEdges_method {ms : List FileMeta}
    {simpleMap : List (String × List Cand)} {known : List String}
    {g0 : DiGraph} {fm : FileMeta} {cp : String × ClassMeta}
    {mp : String × MethodMeta} {tok r : String}
    (hfm : fm ∈ ms) (hcp : cp ∈ fm.classes) (hmp : mp ∈ cp.2.methods)
    (htok : tok ∈ findTokens mp.2.snippet)
    (hskip : ¬(tok = "" ∨ tok = "this" ∨ tok = "super"))
    (hres : resolveToken fm.imports (fm.package.getD "") simpleMap mp.2.vars
      cp.2.class_vars tok = some r)
    (hr : r ≠ "") (hk : r ∈ known) :
    (cp.1, r) ∈ (addCallEdges ms simpleMap known g0).edges := by
  unfold addCallEdges
  apply foldl_reach (fun g : DiGraph => (cp.1, r) ∈ g.edges) ms g0 fm hfm
  · intro g'
    unfold fileCallEdges
    apply foldl_reach (fun g : DiGraph => (cp.1, r) ∈ g.edges)
      fm.classes g' cp hcp
    · intro g''
      unfold classCallStep
      apply foldl_preserve (fun g : DiGraph => (cp.1, r) ∈ g.edges)
      · apply foldl_reach (fun g : DiGraph => (cp.1, r) ∈ g.edges)
          cp.2.methods g'' mp hmp
        · intro g3
          unfold methodStep
          apply foldl_reach (fun g : DiGraph => (cp.1, r) ∈ g.edges)
            (findTokens mp.2.snippet) g3 tok htok
          · intro g4
            unfold tokenEdgeStep
            rw [if_neg hskip, hres]
            show (cp.1, r) ∈
              (if r ≠ "" ∧ r ∈ known then addEdge g4 cp.1 r else g4).edges
            rw [if_pos ⟨hr, hk⟩]
            exact mem_edges_addEdge_self g4 cp.1 r
          · intro g4 tok' _ hg
            exact mem_edges_tokenEdgeStep fm.imports (fm.package.getD "")
              simpleMap mp.2.vars cp.2.class_vars known cp.1 tok' hg
        · intro g3 mp' _ hg
          unfold methodStep
          apply foldl_preserve (fun g : DiGraph => (cp.1, r) ∈ g.edges)
          · exact hg
          · intro g4 tok' _ hg'
            exact mem_edges_tokenEdgeStep fm.imports (fm.package.getD "")
              simpleMap mp'.2.vars cp.2.class_vars known cp.1 tok' hg'
      · intro g3 ct _ hg
        unfold fileCallStep
        apply foldl_preserve (fun g : DiGraph => (cp.1, r) ∈ g.edges)
        · exact hg
        · intro g4 tok' _ hg'
          exact mem_edges_fileTokenStep known cp.1 tok' hg'
    · intro g'' cp' _ hg
      exact mem_edges_classCallStep fm.imports (fm.package.getD "") simpleMap
        known fm.method_calls cp' hg
  · intro g' fm' _ hg
    exact mem_edges_fileCallEdges simpleMap known fm' hg

/-- Exact characterization of the inheritance pass on an edge-free graph:
an edge is added iff some registry entry (the surviving definition) lists a
registered supertype or interface. -/
lemma mem_addInheritanceEdges_iff {reg : List (String × ClassInfo)}
    {g0 : DiGraph} (h0 : g0.edges = []) (c s : String) :
    (c, s) ∈ (addInheritanceEdges reg g0).edges ↔
      ∃ p, p ∈ reg ∧ p.1 = c ∧
        s ∈ p.2.cmeta.extends_ ++ p.2.cmeta.implements ∧
        (lookupAssoc reg s).isSome := by
  constructor
  · intro h
    have hinv : ∀ e ∈ (addInheritanceEdges reg g0).edges,
        e ∈ g0.edges ∨ ∃ p, p ∈ reg ∧ e.1 = p.1 ∧
          e.2 ∈ p.2.cmeta.extends_ ++ p.2.cmeta.implements ∧
          (lookupAssoc reg e.2).isSome := by
      unfold addInheritanceEdges
      apply foldl_preserve (fun g : DiGraph => ∀ e ∈ g.edges,
        e ∈ g0.edges ∨ ∃ p, p ∈ reg ∧ e.1 = p.1 ∧
          e.2 ∈ p.2.cmeta.extends_ ++ p.2.cmeta.implements ∧
          (lookupAssoc reg e.2).isSome)
      · exact fun e he => Or.inl he
      · intro g' p hp hg
        apply foldl_preserve (fun g : DiGraph => ∀ e ∈ g.edges,
          e ∈ g0.edges ∨ ∃ p, p ∈ reg ∧ e.1 = p.1 ∧
            e.2 ∈ p.2.cmeta.extends_ ++ p.2.cmeta.implements ∧
            (lookupAssoc reg e.2).isSome)
        · exact hg
        · intro g'' sup hsup hg' e he
          by_cases hs : (lookupAssoc reg sup).isSome
          · rw [if_pos hs] at he
            rcases (mem_edges_addEdge_iff g'' p.1 sup e).mp he with he' | rfl
            · exact hg' e he'
            · exact Or.inr ⟨p, hp, rfl, hsup, hs⟩
          · rw [if_neg hs] at he
            exact hg' e he
    rcases hinv (c, s) h with he | ⟨p, hp, h1, h2, h3⟩
    · rw [h0] at he
      exact absurd he (List.not_mem_nil (c, s))
    · exact ⟨p, hp, h1.symm, h2, h3⟩
  · rintro ⟨p, hp, hpc, hsup, hs⟩
    unfold addInheritanceEdges
    apply foldl_reach (fun g : DiGraph => (c, s) ∈ g.edges) reg g0 p hp
    · intro g'
      apply foldl_reach (fun g : DiGraph => (c, s) ∈ g.edges)
        (p.2.cmeta.extends_ ++ p.2.cmeta.implements) g' s hsup
      · intro g''
        rw [if_pos hs, hpc]
        exact mem_edges_addEdge_self g'' c s
      · intro g'' sup' _ hg
        by_cases hs' : (lookupAssoc reg sup').isSome
        · rw [if_pos hs']
          exact mem_edges_addEdge_of_mem g'' p.1 sup' hg
        · rw [if_neg hs']
          exact hg
    · intro g' p' _ hg
      apply foldl_preserve (fun g : DiGraph => (c, s) ∈ g.edges)
      · exact hg
      · intro g'' sup' _ hg'
        by_cases hs' : (lookupAssoc reg sup').isSome
        · rw [if_pos hs']
          exact mem_edges_addEdge_of_mem g'' p'.1 sup' hg'
        · rw [if_neg hs']
          exact hg'

/-- C8 (amended): when two files define a class with the same simple name,
`build_dependency_graph` (i) emits a duplicate-name warning, (ii) keeps the
most-recently-seen definition in the registry (last writer wins over the
flat registration sequence), and (iii) both definitions still contribute
their resolved method-call edges under the shared name; but (iv)
inheritance edges are drawn only from the registry's surviving definition:
an inheritance edge exists iff the surviving entry lists a registered
supertype or interface. -/
theorem claim_C8_duplicate_names (ms pre post : List FileMeta)
    (fm1 fm2 : FileMeta) (cn : String) (cm1 cm2 : ClassMeta)
    (hms : ms = pre ++ fm2 :: post) (hfm1 : fm1 ∈ pre)
    (h1 : (cn, cm1) ∈ fm1.classes) (h2 : (cn, cm2) ∈ fm2.classes) :
    (∃ w ∈ (build_dependency_graph ms).warnings, w.1 = cn) ∧
    (∀ k, lookupAssoc (build_dependency_graph ms).class_to_file k =
      (((regPairs ms).filter (fun p => p.1 == k)).getLast?).map Prod.snd) ∧
    (∀ fm ∈ ms, ∀ cp ∈ fm.classes, ∀ mp ∈ cp.2.methods,
      ∀ tok ∈ findTokens mp.2.snippet,
      ¬(tok = "" ∨ tok = "this" ∨ tok = "super") →
      ∀ r, resolveToken fm.imports (fm.package.getD "")
          (buildSimpleMap (build_dependency_graph ms).class_to_file)
          mp.2.vars cp.2.class_vars tok = some r →
        r ≠ "" →
        r ∈ (build_dependency_graph ms).class_to_file.map Prod.fst →
        (cp.1, r) ∈ (build_dependency_graph ms).G.edges) ∧
    (∀ c s, (c, s) ∈ (addInheritanceEdges (registerAll ms).reg
        (registerAll ms).g).edges ↔
      ∃ info, lookupAssoc (registerAll ms).reg c = some info ∧
        s ∈ info.cmeta.extends_ ++ info.cmeta.implements ∧
        (lookupAssoc (registerAll ms).reg s).isSome) := by
  refine ⟨?_, ?_, ?_, ?_⟩
  · subst hms
    have hsplit : registerAll (pre ++ fm2 :: post) =
        ((fm2 :: post).foldl (fun st fm =>
          fm.classes.foldl
            (fun st p => registerClass st fm.path fm.package p.1 p.2) st)
          (registerAll pre)) := by
      unfold registerAll
      rw [List.foldl_append]
    have hkey : cn ∈ (registerAll pre).reg.map Prod.fst :=
      mem_keys_registerAll hfm1 h1
    have hsome : (lookupAssoc (registerAll pre).reg cn).isSome :=
      (lookupAssoc_isSome_iff_mem_keys _ cn).mpr hkey
    have hwarn := warnsFiles (fm2 :: post) cn (registerAll pre) hsome
      ⟨fm2, List.mem_cons_self _ _, cm2, h2⟩
    show ∃ w ∈ (registerAll (pre ++ fm2 :: post)).warnings, w.1 = cn
    rw [hsplit]
    exact hwarn
  · intro k
    show lookupAssoc (registerAll ms).reg k = _
    rw [registerAll_reg, lookup_foldl_insertAssoc]
    cases hq : ((regPairs ms).filter (fun p => p.1 == k)).getLast? with
    | none => rfl
    | some q => rfl
  · intro fm hfm cp hcp mp hmp tok htok hskip r hres hr hk
    exact mem_addCallEdges_method hfm hcp hmp htok hskip hres hr hk
  · intro c s
    rw [mem_addInheritanceEdges_iff (RInv_registerAll ms).2 c s]
    have hnd := registerAll_keys_nodup ms
    constructor
    · rintro ⟨p, hp, hpc, hsup, hs⟩
      refine ⟨p.2, ?_, hsup, hs⟩
      rw [lookupAssoc_eq_some_iff_mem (registerAll ms).reg hnd c p.2]
      have : p = (c, p.2) := by
        rw [← hpc]
      exact this ▸ hp
    · rintro ⟨info, hl, hsup, hs⟩
      refine ⟨(c, info), ?_, rfl, hsup, hs⟩
      exact (lookupAssoc_eq_some_iff_mem (registerAll ms).reg hnd c
        info).mp hl

/-- Counterexample to C8 as stated: two files define class `A`; the first
declares `extends B` with `B` registered, yet the built graph has no edge
`A → B` — the overwritten first definition did not contribute its
inheritance edge. -/
theorem claim_C8_counterexample :
    "B" ∈ (build_dependency_graph
      [⟨"f1.java", none, [],
        [("A", ⟨["B"], [], [], []⟩), ("B", ⟨[], [], [], []⟩)], []⟩,
       ⟨"f2.java", none, [], [("A", ⟨[], [], [], []⟩)], []⟩]).G.nodes ∧
    ("A", "B") ∉ (build_dependency_graph
      [⟨"f1.java", none, [],
        [("A", ⟨["B"], [], [], []⟩), ("B", ⟨[], [], [], []⟩)], []⟩,
       ⟨"f2.java", none, [], [("A", ⟨[], [], [], []⟩)], []⟩]).G.edges := by
  constructor
  · decide
  · decide

/-- Witness for the amended C8: the duplicate definition of `A` produces a
warning naming `A`. -/
theorem claim_C8_witness :
    ∃ w ∈ (build_dependency_graph
      [⟨"f1.java", none, [],
        [("A", ⟨["B"], [], [], []⟩), ("B", ⟨[], [], [], []⟩)], []⟩,
       ⟨"f2.java", none, [], [("A", ⟨[], [], [], []⟩)], []⟩]).warnings,
      w.1 = "A" :=
  (claim_C8_duplicate_names
    [⟨"f1.java", none, [],
      [("A", ⟨["B"], [], [], []⟩), ("B", ⟨[], [], [], []⟩)], []⟩,
     ⟨"f2.java", none, [], [("A", ⟨[], [], [], []⟩)], []⟩]
    [⟨"f1.java", none, [],
      [("A", ⟨["B"], [], [], []⟩), ("B", ⟨[], [], [], []⟩)], []⟩] []
    ⟨"f1.java", none, [],
      [("A", ⟨["B"], [], [], []⟩), ("B", ⟨[], [], [], []⟩)], []⟩
    ⟨"f2.java", none, [], [("A", ⟨[], [], [], []⟩)], []⟩
    "A" ⟨["B"], [], [], []⟩ ⟨[], [], [], []⟩
    rfl (by decide) (by decide) (by decide)).1

/-- C9: a target that is not a graph node makes the closure computation
fail with the target-not-found error; at the run level (when the simple
name of the target is not a node either, so the fallback of C10 does not
apply) the run stops with that message and a sample of the first 50 known
node names, writing no output artifacts (`RunOutcome.targetNotFound` is the
early return before the snippet-extraction and output-writing stages). -/
theorem claim_C9_target_not_found :
    (∀ (g : DiGraph) (t : String), t ∉ g.nodes →
      collect_connected_classes g t =
        .error ("Target class " ++ t ++ " not found in graph")) ∧
    (∀ (ms : List FileMeta) (t : String),
      t ∉ (build_dependency_graph ms).G.nodes →
      lastSegment t ∉ (build_dependency_graph ms).G.nodes →
      run_flow_from_meta ms t = .targetNotFound
        ("Target class " ++ t ++ " not found in graph")
        ((build_dependency_graph ms).G.nodes.take 50)) := by
  constructor
  · intro g t ht
    unfold collect_connected_classes
    rw [if_neg ht]
  · intro ms t h1 h2
    have hcond : ¬(t ∉ (build_dependency_graph ms).G.nodes ∧
        lastSegment t ∈ (build_dependency_graph ms).G.nodes) := by
      rintro ⟨_, hmem⟩
      exact h2 hmem
    have hcollect : collect_connected_classes (build_dependency_graph ms).G
        t = .error ("Target class " ++ t ++ " not found in graph") := by
      unfold collect_connected_classes
      rw [if_neg h1]
    simp only [run_flow_from_meta]
    rw [if_neg hcond, hcollect]

/-- Witness for C9: target `Zzz` is unknown, the run stops with the
error message and the node sample. -/
theorem claim_C9_witness :
    run_flow_from_meta [⟨"B.java", none, [], [("B", ⟨[], [], [], []⟩)], []⟩]
        "Zzz" =
      .targetNotFound ("Target class " ++ "Zzz" ++ " not found in graph")
        ((build_dependency_graph
          [⟨"B.java", none, [], [("B", ⟨[], [], [], []⟩)], []⟩]).G.nodes.take
            50) :=
  claim_C9_target_not_found.2
    [⟨"B.java", none, [], [("B", ⟨[], [], [], []⟩)], []⟩] "Zzz"
    (by decide) (by decide)

/-- C10: when the requested target is not a node but its trailing
dot-separated segment is, `run_flow` substitutes the simple name before
computing the closure: the run behaves exactly as if invoked on the simple
name, and completes with it as the effective target. -/
theorem claim_C10_qualified_target (ms : List FileMeta) (t : String)
    (h1 : t ∉ (build_dependency_graph ms).G.nodes)
    (h2 : lastSegment t ∈ (build_dependency_graph ms).G.nodes) :
    run_flow_from_meta ms t = run_flow_from_meta ms (lastSegment t) ∧
    ∃ ord, run_flow_from_meta ms t = .completed (lastSegment t) ord := by
  have hcond : t ∉ (build_dependency_graph ms).G.nodes ∧
      lastSegment t ∈ (build_dependency_graph ms).G.nodes := ⟨h1, h2⟩
  have hcond2 : ¬(lastSegment t ∉ (build_dependency_graph ms).G.nodes ∧
      lastSegment (lastSegment t) ∈ (build_dependency_graph ms).G.nodes) := by
    rintro ⟨hc, _⟩
    exact hc h2
  have hcollect : collect_connected_classes (build_dependency_graph ms).G
      (lastSegment t) = .ok (lastSegment t ::
        (descendants (build_dependency_graph ms).G (lastSegment t) ++
         ancestors (build_dependency_graph ms).G (lastSegment t))) := by
    unfold collect_connected_classes
    rw [if_pos h2]
  constructor
  · simp only [run_flow_from_meta]
    rw [if_pos hcond, if_neg hcond2]
  · refine ⟨topologically_order_subgraph (build_dependency_graph ms).G
      (lastSegment t ::
        (descendants (build_dependency_graph ms).G (lastSegment t) ++
         ancestors (build_dependency_graph ms).G (lastSegment t))), ?_⟩
    simp only [run_flow_from_meta]
    rw [if_pos hcond, hcollect]

/-- Witness for C10: the qualified target `a.B` succeeds through its
simple name `B`. -/
theorem claim_C10_witness :
    run_flow_from_meta [⟨"B.java", none, [], [("B", ⟨[], [], [], []⟩)], []⟩]
        "a.B" =
      run_flow_from_meta [⟨"B.java", none, [], [("B", ⟨[], [], [], []⟩)], []⟩]
        (lastSegment "a.B") ∧
    ∃ ord, run_flow_from_meta
        [⟨"B.java", none, [], [("B", ⟨[], [], [], []⟩)], []⟩] "a.B" =
      .completed (lastSegment "a.B") ord :=
  claim_C10_qualified_target
    [⟨"B.java", none, [], [("B", ⟨[], [], [], []⟩)], []⟩] "a.B"
    (by decide) (by decide)

end CodeExtractor

